import Mathlib

/-!
Verification development for the appstate signal-execution engine
(src/src/appstate.js).  The engine compiles a nested action description
into a tree of branch nodes and interprets it against a store, threading
a growing argument bag through every step.

This file shallowly embeds the runtime of the engine:

* JavaScript values are modelled by `JSVal`; plain objects are
  association lists of fields.  The constructor `JSVal.cyc` stands for a
  value containing a circular reference (a cyclic object cannot be
  expressed as an inductive value); `JSON.stringify` throws exactly on
  such values, which `stringifyOk` captures.
* The helpers `merge`, `isEqualArrays`, `checkArgs`,
  `createNextFunction` (as `nextResult`), `addOutputs` (as
  `callOutput`), `createActionArgs` and `getStateMethods` are direct
  translations of the source functions of the same names.
* The scheduler `runBranch` / `runSyncBranch` / `runAsyncBranch` is
  embedded as a fuel-indexed interpreter.  Promise nondeterminism (the
  settlement order of the members of an async group) is resolved by an
  oracle: a list of permutations consumed one per group; theorems
  quantify over all oracles.  Each member of a group is initiated in
  source order; completions (the `.then` bodies) are processed in the
  oracle's order, each running its output sub-tree to completion, which
  matches the promise chains built by the source (every sub-tree promise
  is chained into the member's promise before the `Promise.all` join).
* The run promise is modelled by `Prom` with first-settlement-wins
  transitions, exactly like a JS promise.
-/

/-- A JavaScript value.  `cyc` stands for a value containing a circular
reference, which cannot be expressed inductively; its only modelled
property is that `JSON.stringify` throws on it. -/
inductive JSVal where
  | undef
  | null
  | bool (b : Bool)
  | num (n : Int)
  | str (s : String)
  | obj (fields : List (String × JSVal))
  | cyc
deriving Repr

/-- JavaScript truthiness of a value (`undefined`, `null`, `false`, `0`
and the empty string are falsy; objects, including circular ones, are
truthy). -/
def truthy : JSVal → Bool
  | .undef => false
  | .null => false
  | .bool b => b
  | .num n => n != 0
  | .str s => s != ""
  | .obj _ => true
  | .cyc => true

mutual

/-- Whether `JSON.stringify` succeeds on a value: it throws exactly when
the value contains a circular reference. -/
def stringifyOk : JSVal → Bool
  | .cyc => false
  | .obj fs => stringifyOkL fs
  | _ => true

/-- `stringifyOk` over the fields of an object. -/
def stringifyOkL : List (String × JSVal) → Bool
  | [] => true
  | kv :: rest => stringifyOk kv.2 && stringifyOkL rest

end

/-- Property assignment `target[k] = v` on a JS object modelled as an
association list: an existing key keeps its position, a new key is
appended (JS own-property insertion order). -/
def setKey : List (String × JSVal) → String → JSVal → List (String × JSVal)
  | [], k, v => [(k, v)]
  | (k', v') :: rest, k, v =>
    if k' = k then (k, v) :: rest else (k', v') :: setKey rest k v

/-- The own enumerable properties `Object.keys(source)` iterates in
`merge`: a falsy source is first replaced by the empty object
(`source = source || ...`); objects yield their fields; a (truthy)
string yields indexed one-character fields; numbers and booleans have no
own properties.  `cyc` is kept opaque (no enumerated fields). -/
def sourceFields (v : JSVal) : List (String × JSVal) :=
  if truthy v = false then []
  else match v with
    | .obj fs => fs
    | .str s => s.toList.enum.map (fun ic => (toString ic.1, JSVal.str (String.mk [ic.2])))
    | _ => []

/-- `merge(target, source)` from the source: copies every key of
`source` onto `target` and returns `target`. -/
def merge (target : List (String × JSVal)) (source : JSVal) : List (String × JSVal) :=
  (sourceFields source).foldl (fun t kv => setKey t kv.1 kv.2) target

/-- One component of a branch node's structural `path`: a numeric index
or a string key (the literal `outputs` marker and output names). -/
inductive PKey where
  | idx (n : Nat)
  | key (s : String)
deriving DecidableEq, Repr

instance : BEq PKey := instBEqOfDecidableEq

/-- `isEqualArrays(first, second)` from the source: both are arrays of
the same length with `===`-equal elements (the replay-record key
comparison). -/
def isEqualArrays (first second : List PKey) : Bool :=
  first.length == second.length &&
    (List.zip first second).all (fun p => p.1 == p.2)

/-- The `{path, args}` result object produced by a step's `output(...)`
call (`path` is `none` for `null`/`undefined`). -/
structure OutRes where
  path : Option String
  args : JSVal
deriving Repr

/-- `createNextFunction`'s result computation: `path` is the first
argument when it is a string; the payload is the second argument when
`path` is truthy (a nonempty string) and the first otherwise; the
result path falls back to the action function's `defaultOutput`
property when `path` is falsy. -/
def nextResult (defaultOutput : Option String) (arg0 arg1 : JSVal) : OutRes :=
  let path : Option String := match arg0 with
    | .str s => some s
    | _ => none
  let pTruthy : Bool := match path with
    | some s => s != ""
    | none => false
  { path := if pTruthy then path else defaultOutput
    args := if pTruthy then arg1 else arg0 }

/-- Truthiness of the `result.path` slot (`if (result.path)`), which is
a string, `null` or `undefined`: truthy exactly for nonempty strings. -/
def pathTruthy : Option String → Bool
  | some s => s != ""
  | none => false

/-- How a step invokes its `output` capability: `raw a0 a1` is
`output(a0, a1)` (missing arguments are `undefined`); `shortcut name p`
is `output.name(p)`, using one of the bound shortcuts installed by
`addOutputs`. -/
inductive OCall where
  | raw (arg0 arg1 : JSVal)
  | shortcut (name : String) (payload : JSVal)
deriving Repr

/-- An error surfaced during a run. -/
inductive RunErr where
  | userErr (actionIndex : Nat)
  | typeError (msg : String)
  | serializationError
deriving DecidableEq, Repr

/-- Evaluating an `output` invocation.  `addOutputs` installs a bound
shortcut `next[key] = next.bind(null, key)` only for each declared
output key, so `output.name(p)` with an undeclared `name` calls
`undefined` and throws a `TypeError`; a declared shortcut is exactly
`output(name, p)`.  A raw call goes straight to `createNextFunction`'s
body. -/
def callOutput (declared : List String) (defaultOutput : Option String) :
    OCall → Except RunErr OutRes
  | .raw a0 a1 => .ok (nextResult defaultOutput a0 a1)
  | .shortcut name p =>
    if name ∈ declared then .ok (nextResult defaultOutput (.str name) p)
    else .error (.typeError ("output shortcut is not a function"))

/-- The context object handed to a user step, as built by
`createActionArgs`: the live argument bag plus the store methods chosen
by `getStateMethods` (modelled by presence flags). -/
structure Ctx where
  args : List (String × JSVal)
  getState : Bool
  dispatch : Bool
deriving Repr

/-- `getStateMethods(store, isAsync)`: async steps receive only
`getState`; sync steps receive `getState` and `dispatch`.  Modelled as
the pair of presence flags `(getState, dispatch)`. -/
def getStateMethods (isAsync : Bool) : Bool × Bool :=
  if isAsync then (true, false) else (true, true)

/-- `createActionArgs(args, store, isAsync)`: the `args` reference
merged with the store accessors. -/
def createActionArgs (args : List (String × JSVal)) (isAsync : Bool) : Ctx :=
  { args := args
    getState := (getStateMethods isAsync).1
    dispatch := (getStateMethods isAsync).2 }

/-- What a user step does when invoked: throws synchronously, or
returns after invoking its `output` capability at most once.  For an
asynchronous step, `ret none` means the output callback is never
invoked, so the step's promise never resolves. -/
inductive StepAct where
  | throws
  | ret (call : Option OCall)
deriving Repr

/-- A user action function: its optional `defaultOutput` property and
its behaviour when invoked. -/
structure StepBeh where
  defaultOutput : Option String
  act : StepAct
deriving Repr

/-- The action registry `tree.actions`: looks a behaviour up by
`actionIndex` (a missing entry models an `undefined` action function,
whose invocation throws a `TypeError`). -/
def Env := Nat → Option StepBeh

/-- The compile-time data and mutable run-state fields of a branch node
produced by `transformSyncBranch` (run-state fields start at their
compiled initial values). -/
structure NData where
  name : String
  actionIndex : Nat
  isAsync : Bool
  path : List PKey
  args : JSVal := .obj []
  output : JSVal := .null
  duration : Int := 0
  outputPath : Option String := none
  isExecuting : Bool := false
  hasExecuted : Bool := false
deriving Repr

/-- A compiled branch: a plain node with its optional named output
sub-trees, or an async group (an array of branches run
concurrently). -/
inductive BTree where
  | node (d : NData) (outs : Option (List (String × List BTree)))
  | group (members : List BTree)
deriving Repr

/-- A replay record `{outputPath, path, args}` pushed onto
`signal.asyncActionResults` when an asynchronous branch completes. -/
structure Rec where
  outputPath : List PKey
  path : Option String
  args : JSVal
deriving Repr

/-- An observable event of a run: a user step function being invoked
(with the context object it receives and whether it ran through the
async branch runner), or a branch's completion being processed. -/
inductive Ev where
  | invoked (path : List PKey) (isAsync : Bool) (ctx : Ctx)
  | settled (path : List PKey)
deriving Repr

/-- The `SignalResult` descriptor the run promise resolves with. -/
structure Signal where
  args : List (String × JSVal)
  asyncActionResults : List Rec
  branches : List BTree
  isExecuting : Bool
  duration : Int
deriving Repr

/-- The state of the run promise; like a JS promise it settles at most
once. -/
inductive Prom where
  | unsettled
  | resolvedWith (sig : Signal)
  | rejectedWith (e : RunErr)
deriving Repr

/-- `resolve(s)`: a no-op on a settled promise. -/
def promResolve (p : Prom) (s : Signal) : Prom :=
  match p with
  | .unsettled => .resolvedWith s
  | _ => p

/-- `reject(e)`: a no-op on a settled promise. -/
def promReject (p : Prom) (e : RunErr) : Prom :=
  match p with
  | .unsettled => .rejectedWith e
  | _ => p

/-- `checkArgs(args, promise)`: rejects the run promise when the
argument bag cannot be serialized, and (deliberately, in the source)
does nothing else — execution continues either way. -/
def checkArgs (args : List (String × JSVal)) (p : Prom) : Prom :=
  if stringifyOk (.obj args) then p else promReject p .serializationError

/-- The mutable per-run state threaded through the interpreter: the
shared argument bag, the live `signal.asyncActionResults` array (the
very list the caller passed in), the run promise, the event trace, the
settlement-order oracle, and the two `Date.now()` readings. -/
structure St where
  args : List (String × JSVal)
  records : List Rec
  prom : Prom
  trace : List Ev
  sch : List (List Nat)
  start : Int
  endTime : Int
deriving Repr

/-- What a `runBranch`/`runSyncBranch`/`runAsyncBranch` call hands back
to its structural caller: `finished isProm` is a normal return
(`undefined`, or a promise that fulfils — `isProm` records which);
`thrownS e` is a synchronous exception escaping the call; `rejectedP e`
is a returned promise that rejects; `hang` is a returned promise that
never settles. -/
inductive SeqRet where
  | finished (isProm : Bool)
  | thrownS (e : RunErr)
  | rejectedP (e : RunErr)
  | hang
deriving Repr

/-- The result of running (part of) a branch sequence: the updated run
state, the annotated branch sequence, and the return mode. -/
structure RB where
  st : St
  branches : List BTree
  ret : SeqRet
deriving Repr

/-- The initiation outcome of one async-group member: it will settle
with an output result (possibly taken from a replay record), or its
promise will never resolve because the step never invokes `output`. -/
inductive MemberInit where
  | willSettle (res : OutRes)
  | never
deriving Repr

/-- `Object.keys(action.outputs)` (or `[]` when `outputs` is null). -/
def outKeys : Option (List (String × List BTree)) → List String
  | some m => m.map (fun kv => kv.1)
  | none => []

/-- `action.outputs[name]`: the registered sub-tree, if any. -/
def lookupOut (m : List (String × List BTree)) (name : String) : Option (List BTree) :=
  (m.find? (fun kv => kv.1 == name)).map (fun kv => kv.2)

/-- Write an annotated sub-tree back under its output name. -/
def setOut (m : List (String × List BTree)) (name : String) (lst : List BTree) :
    List (String × List BTree) :=
  m.map (fun kv => if kv.1 == name then (kv.1, lst) else kv)

/-- Turns one oracle entry into the order in which the settled members
of an `n`-member group have their `.then` bodies processed: the valid
part of the requested permutation first, then the remaining members in
source order.  Every member index below `n` occurs exactly once. -/
def completionOrder (n : Nat) (perm : List Nat) : List Nat :=
  let pd := (perm.filter (fun i => decide (i < n))).dedup
  pd ++ (List.range n).filter (fun i => decide (i ∉ pd))

/-- The synchronous part of `runAsyncBranch`'s `.map` for one member:
annotate the node, look for a replay record (first match on the
structural path wins — replayed members are not invoked), otherwise
invoke the step.  Returns the annotated member, the emitted events, and
either the member's initiation outcome or the exception the invocation
threw (which aborts the whole `.map`). -/
def initMember (env : Env) (st : St) (b : BTree) :
    BTree × List Ev × Except RunErr MemberInit :=
  match b with
  | .group ms =>
    (.group ms, [], .error (.typeError ("actionFunc is not a function")))
  | .node d o =>
    let ctx := createActionArgs st.args true
    let declared := outKeys o
    let d1 := { d with isExecuting := true, args := JSVal.obj (merge [] (.obj st.args)) }
    match st.records.find? (fun r => isEqualArrays r.outputPath d.path) with
    | some r => (.node d1 o, [], .ok (.willSettle ⟨r.path, r.args⟩))
    | none =>
      match env d.actionIndex with
      | none => (.node d1 o, [], .error (.typeError ("actionFunc is not a function")))
      | some beh =>
        match beh.act with
        | .throws => (.node d1 o, [Ev.invoked d.path true ctx], .error (.userErr d.actionIndex))
        | .ret none => (.node d1 o, [Ev.invoked d.path true ctx], .ok .never)
        | .ret (some call) =>
          match callOutput declared beh.defaultOutput call with
          | .error e => (.node d1 o, [Ev.invoked d.path true ctx], .error e)
          | .ok res => (.node d1 o, [Ev.invoked d.path true ctx], .ok (.willSettle res))

/-- The whole `.map` of `runAsyncBranch`: initiate every member in
source order; a synchronous throw aborts the map, leaving later members
uninitiated. -/
def initMembers (env : Env) (st : St) : List BTree →
    List BTree × List MemberInit × List Ev × Option RunErr
  | [] => ([], [], [], none)
  | b :: rest =>
    match initMember env st b with
    | (b', evs, .error e) => (b' :: rest, [], evs, some e)
    | (b', evs, .ok mi) =>
      match initMembers env st rest with
      | (rest', mis, evs', err) => (b' :: rest', mi :: mis, evs ++ evs', err)

/-- `var result = next._result || {}` followed by reading `result.path`:
the selected output path of a synchronous step that did not call
`output` is `undefined`. -/
def resPathOf : Option OutRes → Option String
  | some rr => rr.path
  | none => none

/-- Reading `result.args` of `next._result || {}`. -/
def resArgsOf : Option OutRes → JSVal
  | some rr => rr.args
  | none => JSVal.undef -- the step never called output

/-- The `if (result.path)` test with its selected branch: a nonempty
string path selects that output sub-tree, anything falsy selects
nothing. -/
def selPath : Option String → Option String
  | some p => if p != "" then some p else none
  | none => none

/-- Whether a member's promise can never resolve (its step returned
without invoking `output`). -/
def neverInit : MemberInit → Bool
  | .never => true
  | _ => false

/-- The outcome of a synchronous step's at-most-one `output` call:
`next._result` stays unset when the step never called `output`. -/
def syncCallResult (c : Option OCall) (declared : List String)
    (dflt : Option String) : Except RunErr (Option OutRes) :=
  match c with
  | none => Except.ok (Option.none (α := OutRes))
  | some call => (callOutput declared dflt call).map some

mutual

/-- `runBranch(index, options)`: dispatch on the branch at `index`,
finalize the run at the end of the root sequence (stamping the elapsed
time on the last top-level branch node and resolving the run promise
with the signal descriptor, whose own `duration` field is the initial
`0`), or return to the structural caller at the end of a nested
sub-tree.  A `none` branches argument models running into an
`undefined` sub-tree, where reading `tree.branches[index]` throws. -/
def runBranch (fuel : Nat) (env : Env) (branches : Option (List BTree)) (idx : Nat)
    (isRoot : Bool) (st : St) : Option RB :=
  match fuel with
  | 0 => none
  | n + 1 =>
    match branches with
    | none => some ⟨st, [], .thrownS (.typeError ("Cannot read branches of undefined"))⟩
    | some bs =>
      match bs.get? idx with
      | none =>
        if isRoot then
          let bs' := match idx with
            | 0 => bs
            | j + 1 =>
              match bs.get? j with
              | some (.node d o) => bs.set j (.node { d with duration := st.endTime - st.start } o)
              | _ => bs
          let sig : Signal := ⟨st.args, st.records, bs', false, 0⟩
          some ⟨{ st with prom := promResolve st.prom sig }, bs', .finished false⟩
        else some ⟨st, bs, .finished false⟩
      | some (.group ms) => runAsyncBranch n env bs idx ms isRoot st
      | some (.node d o) => runSyncBranch n env bs idx d o isRoot st

/-- `runSyncBranch`: invoke the step inside a try/catch, merge its
output payload into the shared args, annotate the node, recurse into
the selected output sub-tree (waiting for it when it is asynchronous)
and continue with the next sibling.  A caught exception rejects the run
promise and returns `undefined` (so a structural caller continues). -/
def runSyncBranch (fuel : Nat) (env : Env) (seq : List BTree) (idx : Nat) (d : NData)
    (o : Option (List (String × List BTree))) (isRoot : Bool) (st : St) : Option RB :=
  match fuel with
  | 0 => none
  | n + 1 =>
    let ctx := createActionArgs st.args false
    let declared := outKeys o
    let d1 := { d with args := JSVal.obj (merge [] (.obj st.args)) }
    match env d.actionIndex with
    | none =>
      some ⟨{ st with prom := promReject st.prom (.typeError ("actionFunc is not a function")) },
        seq.set idx (.node d1 o), .finished false⟩
    | some beh =>
      match beh.act with
      | .throws =>
        let st1 := { st with trace := st.trace ++ [Ev.invoked d.path false ctx] }
        some ⟨{ st1 with prom := promReject st1.prom (.userErr d.actionIndex) },
          seq.set idx (.node d1 o), .finished false⟩
      | .ret c =>
        let st1 := { st with trace := st.trace ++ [Ev.invoked d.path false ctx] }
        match syncCallResult c declared beh.defaultOutput with
        | .error e =>
          some ⟨{ st1 with prom := promReject st1.prom e },
            seq.set idx (.node d1 o), .finished false⟩
        | .ok res =>
          let resPath : Option String := resPathOf res
          let resArgs : JSVal := resArgsOf res
          let st2 := { st1 with args := merge st1.args resArgs }
          let d2 := { d1 with isExecuting := false, hasExecuted := true, output := resArgs }
          let st3 := { st2 with trace := st2.trace ++ [Ev.settled d.path] }
          match selPath resPath with
          | some p =>
            let d3 := { d2 with outputPath := some p }
            match o with
            | none =>
              some ⟨{ st3 with prom := promReject st3.prom (.typeError ("Cannot read outputs of null")) },
                seq.set idx (.node d3 o), .finished false⟩
            | some m =>
              let sub := lookupOut m p
              match runBranch n env sub 0 false st3 with
              | none => none
              | some r =>
                let o' := if sub.isSome then some (setOut m p r.branches) else some m
                let seq' := seq.set idx (.node d3 o')
                match r.ret with
                | .thrownS e =>
                  some ⟨{ r.st with prom := promReject r.st.prom e }, seq', .finished false⟩
                | .finished true =>
                  match runBranch n env (some seq') (idx + 1) isRoot r.st with
                  | none => none
                  | some r2 =>
                    let ret2 := match r2.ret with
                      | .thrownS e => SeqRet.rejectedP e
                      | .finished _ => SeqRet.finished true
                      | x => x
                    some ⟨r2.st, r2.branches, ret2⟩
                | .finished false =>
                  match runBranch n env (some seq') (idx + 1) isRoot r.st with
                  | none => none
                  | some r2 =>
                    match r2.ret with
                    | .thrownS e =>
                      some ⟨{ r2.st with prom := promReject r2.st.prom e }, r2.branches, .finished false⟩
                    | _ => some r2
                | .rejectedP e => some ⟨r.st, seq', .rejectedP e⟩
                | .hang => some ⟨r.st, seq', .hang⟩
          | none =>
            let seq' := seq.set idx (.node d2 o)
            match runBranch n env (some seq') (idx + 1) isRoot st3 with
            | none => none
            | some r2 =>
              match r2.ret with
              | .thrownS e =>
                some ⟨{ r2.st with prom := promReject r2.st.prom e }, r2.branches, .finished false⟩
              | _ => some r2

/-- `runAsyncBranch`: initiate every member in source order, process
the settled members' `.then` bodies in the oracle's order, and advance
to `index + 1` only after the `Promise.all` join — which also happens
when a member's failure already rejected the run promise, since the
member's `.catch` settles its chain. -/
def runAsyncBranch (fuel : Nat) (env : Env) (seq : List BTree) (idx : Nat)
    (ms : List BTree) (isRoot : Bool) (st : St) : Option RB :=
  match fuel with
  | 0 => none
  | n + 1 =>
    match initMembers env st ms with
    | (ms1, inits, evs, err) =>
      let stA := { st with trace := st.trace ++ evs }
      match err with
      | some e => some ⟨stA, seq.set idx (.group ms1), .thrownS e⟩
      | none =>
        let perm := (stA.sch.head?).getD []
        let stB := { stA with sch := stA.sch.tail }
        let order := completionOrder ms.length perm
        match runMembers n env order inits ms1 stB with
        | none => none
        | some (stC, ms2, anyHang) =>
          let anyNever := inits.any neverInit
          let seq' := seq.set idx (.group ms2)
          if anyHang || anyNever then some ⟨stC, seq', .hang⟩
          else
            match runBranch n env (some seq') (idx + 1) isRoot stC with
            | none => none
            | some r =>
              let ret' := match r.ret with
                | .thrownS e => SeqRet.rejectedP e
                | .finished _ => SeqRet.finished true
                | x => x
              some ⟨r.st, r.branches, ret'⟩

/-- Process the settled members of a group in the given completion
order (member indices whose promise never resolves are skipped — their
`.then` never runs).  Returns the updated state, the annotated members
and whether some processed member's chain itself never settles. -/
def runMembers (fuel : Nat) (env : Env) (order : List Nat) (inits : List MemberInit)
    (members : List BTree) (st : St) : Option (St × List BTree × Bool) :=
  match fuel with
  | 0 => none
  | n + 1 =>
    match order with
    | [] => some (st, members, false)
    | i :: rest =>
      match inits.get? i, members.get? i with
      | some (.willSettle res), some m =>
        match completeMember n env m res st with
        | none => none
        | some (st', m', ok) =>
          match runMembers n env rest inits (members.set i m') st' with
          | none => none
          | some (st'', ms'', anyHang) => some (st'', ms'', anyHang || !ok)
      | _, _ => runMembers n env rest inits members st

/-- The `.then` body of one async-group member: annotate the node, push
the replay record onto the live `asyncActionResults` array, merge the
payload into the shared args, and run the sub-tree registered under the
selected output path; any failure in the body reaches the member's
`.catch`, which rejects the run promise while settling the member's own
chain. -/
def completeMember (fuel : Nat) (env : Env) (b : BTree) (res : OutRes) (st : St) :
    Option (St × BTree × Bool) :=
  match fuel with
  | 0 => none
  | n + 1 =>
    match b with
    | .group ms => some (st, .group ms, true)
    | .node d o =>
      let st1 := { st with trace := st.trace ++ [Ev.settled d.path] }
      let d1 := { d with hasExecuted := true, isExecuting := false, output := res.args }
      let st2 := { st1 with records := st1.records ++ [Rec.mk d.path res.path res.args] }
      let st3 := { st2 with args := merge st2.args res.args }
      match selPath res.path with
      | some p =>
        let d2 := { d1 with outputPath := some p }
        match o with
        | none =>
          some ({ st3 with prom := promReject st3.prom (.typeError ("Cannot read outputs of null")) },
            .node d2 o, true)
        | some m =>
          let sub := lookupOut m p
          match runBranch n env sub 0 false st3 with
          | none => none
          | some r =>
            let o' := if sub.isSome then some (setOut m p r.branches) else some m
            match r.ret with
            | .finished _ => some (r.st, .node d2 o', true)
            | .thrownS e => some ({ r.st with prom := promReject r.st.prom e }, .node d2 o', true)
            | .rejectedP e => some ({ r.st with prom := promReject r.st.prom e }, .node d2 o', true)
            | .hang => some (r.st, .node d2 o', false)
      | none => some (st3, .node d1 o, true)

end

/-- The observable outcome of one invocation of a compiled signal. -/
structure RunResult where
  prom : Prom
  trace : List Ev
  branches : List BTree
  records : List Rec
  args : List (String × JSVal)
deriving Repr

/-- The function returned by `create(actions)`: build the run promise,
run `checkArgs` (which rejects it on unserializable args but does not
stop the run), and start `runBranch(0, ...)` from the promise executor.
A synchronous exception escaping to the executor rejects the promise; a
rejected or pending promise returned to the executor is discarded, so
the run promise never settles in those cases.  The `asyncActionResults`
parameter is the caller's own array, threaded through the state as
`records`. -/
def runSignal (fuel : Nat) (env : Env) (tree : List BTree)
    (args : List (String × JSVal)) (asyncActionResults : List Rec)
    (sch : List (List Nat)) (start endTime : Int) : Option RunResult :=
  let prom0 := checkArgs args .unsettled
  let st0 : St := ⟨args, asyncActionResults, prom0, [], sch, start, endTime⟩
  match runBranch fuel env (some tree) 0 true st0 with
  | none => none
  | some r =>
    let promF := match r.ret with
      | .thrownS e => promReject r.st.prom e
      | _ => r.st.prom
    some ⟨promF, r.st.trace, r.branches, r.st.records, r.st.args⟩

/-! ### A defunctionalized form of the interpreter

The five mutually recursive functions above are compiled through a
5-way course-of-values recursion whose unfolding is far too slow for
closed-term evaluation.  `runEval` is the same algorithm written as a
single structural recursion over a sum of the five call shapes; the
bridge `runEval_sound` (below, after the helper lemmas) lets every
concrete run be computed through `runEval` and transported back to the
five primary definitions. -/

/-- One pending call of the interpreter: the argument tuples of
`runBranch`, `runSyncBranch`, `runAsyncBranch`, `runMembers` and
`completeMember`. -/
inductive Call where
  | branch (branches : Option (List BTree)) (idx : Nat) (isRoot : Bool) (st : St)
  | syncB (seq : List BTree) (idx : Nat) (d : NData)
      (o : Option (List (String × List BTree))) (isRoot : Bool) (st : St)
  | asyncB (seq : List BTree) (idx : Nat) (ms : List BTree) (isRoot : Bool) (st : St)
  | members (order : List Nat) (inits : List MemberInit) (membs : List BTree) (st : St)
  | completeM (b : BTree) (res : OutRes) (st : St)

/-- The result of one interpreter call: an `RB` for the three branch
runners, a members-result or a member-completion result for the other
two. -/
inductive Ans where
  | rb (r : RB)
  | tupM (t : St × List BTree × Bool)
  | tupC (t : St × BTree × Bool)

/-- The five interpreter functions as one structural recursion on fuel.
Each arm is a literal transcription of the corresponding function's
body, with every recursive call routed back through `runEval`. -/
def runEval : Nat → Env → Call → Option Ans
  | 0, _, _ => none
  | n + 1, env, c =>
    match c with
    | .branch branches idx isRoot st =>
      match branches with
      | none => some (.rb ⟨st, [], .thrownS (.typeError ("Cannot read branches of undefined"))⟩)
      | some bs =>
        match bs.get? idx with
        | none =>
          if isRoot then
            let bs' := match idx with
              | 0 => bs
              | j + 1 =>
                match bs.get? j with
                | some (.node d o) => bs.set j (.node { d with duration := st.endTime - st.start } o)
                | _ => bs
            let sig : Signal := ⟨st.args, st.records, bs', false, 0⟩
            some (.rb ⟨{ st with prom := promResolve st.prom sig }, bs', .finished false⟩)
          else some (.rb ⟨st, bs, .finished false⟩)
        | some (.group ms) => runEval n env (.asyncB bs idx ms isRoot st)
        | some (.node d o) => runEval n env (.syncB bs idx d o isRoot st)
    | .syncB seq idx d o isRoot st =>
      let ctx := createActionArgs st.args false
      let declared := outKeys o
      let d1 := { d with args := JSVal.obj (merge [] (.obj st.args)) }
      match env d.actionIndex with
      | none =>
        some (.rb ⟨{ st with prom := promReject st.prom (.typeError ("actionFunc is not a function")) },
          seq.set idx (.node d1 o), .finished false⟩)
      | some beh =>
        match beh.act with
        | .throws =>
          let st1 := { st with trace := st.trace ++ [Ev.invoked d.path false ctx] }
          some (.rb ⟨{ st1 with prom := promReject st1.prom (.userErr d.actionIndex) },
            seq.set idx (.node d1 o), .finished false⟩)
        | .ret c =>
          let st1 := { st with trace := st.trace ++ [Ev.invoked d.path false ctx] }
          match syncCallResult c declared beh.defaultOutput with
          | .error e =>
            some (.rb ⟨{ st1 with prom := promReject st1.prom e },
              seq.set idx (.node d1 o), .finished false⟩)
          | .ok res =>
            let resPath : Option String := resPathOf res
            let resArgs : JSVal := resArgsOf res
            let st2 := { st1 with args := merge st1.args resArgs }
            let d2 := { d1 with isExecuting := false, hasExecuted := true, output := resArgs }
            let st3 := { st2 with trace := st2.trace ++ [Ev.settled d.path] }
            match selPath resPath with
            | some p =>
              let d3 := { d2 with outputPath := some p }
              match o with
              | none =>
                some (.rb ⟨{ st3 with prom := promReject st3.prom (.typeError ("Cannot read outputs of null")) },
                  seq.set idx (.node d3 o), .finished false⟩)
              | some m =>
                let sub := lookupOut m p
                match runEval n env (.branch sub 0 false st3) with
                | some (.rb r) =>
                  let o' := if sub.isSome then some (setOut m p r.branches) else some m
                  let seq' := seq.set idx (.node d3 o')
                  match r.ret with
                  | .thrownS e =>
                    some (.rb ⟨{ r.st with prom := promReject r.st.prom e }, seq', .finished false⟩)
                  | .finished true =>
                    match runEval n env (.branch (some seq') (idx + 1) isRoot r.st) with
                    | some (.rb r2) =>
                      let ret2 := match r2.ret with
                        | .thrownS e => SeqRet.rejectedP e
                        | .finished _ => SeqRet.finished true
                        | x => x
                      some (.rb ⟨r2.st, r2.branches, ret2⟩)
                    | _ => none
                  | .finished false =>
                    match runEval n env (.branch (some seq') (idx + 1) isRoot r.st) with
                    | some (.rb r2) =>
                      match r2.ret with
                      | .thrownS e =>
                        some (.rb ⟨{ r2.st with prom := promReject r2.st.prom e }, r2.branches, .finished false⟩)
                      | _ => some (.rb r2)
                    | _ => none
                  | .rejectedP e => some (.rb ⟨r.st, seq', .rejectedP e⟩)
                  | .hang => some (.rb ⟨r.st, seq', .hang⟩)
                | _ => none
            | none =>
              let seq' := seq.set idx (.node d2 o)
              match runEval n env (.branch (some seq') (idx + 1) isRoot st3) with
              | some (.rb r2) =>
                match r2.ret with
                | .thrownS e =>
                  some (.rb ⟨{ r2.st with prom := promReject r2.st.prom e }, r2.branches, .finished false⟩)
                | _ => some (.rb r2)
              | _ => none
    | .asyncB seq idx ms isRoot st =>
      match initMembers env st ms with
      | (ms1, inits, evs, err) =>
        let stA := { st with trace := st.trace ++ evs }
        match err with
        | some e => some (.rb ⟨stA, seq.set idx (.group ms1), .thrownS e⟩)
        | none =>
          let perm := (stA.sch.head?).getD []
          let stB := { stA with sch := stA.sch.tail }
          let order := completionOrder ms.length perm
          match runEval n env (.members order inits ms1 stB) with
          | some (.tupM (stC, ms2, anyHang)) =>
            let anyNever := inits.any neverInit
            let seq' := seq.set idx (.group ms2)
            if anyHang || anyNever then some (.rb ⟨stC, seq', .hang⟩)
            else
              match runEval n env (.branch (some seq') (idx + 1) isRoot stC) with
              | some (.rb r) =>
                let ret' := match r.ret with
                  | .thrownS e => SeqRet.rejectedP e
                  | .finished _ => SeqRet.finished true
                  | x => x
                some (.rb ⟨r.st, r.branches, ret'⟩)
              | _ => none
          | _ => none
    | .members order inits membs st =>
      match order with
      | [] => some (.tupM (st, membs, false))
      | i :: rest =>
        match inits.get? i, membs.get? i with
        | some (.willSettle res), some m =>
          match runEval n env (.completeM m res st) with
          | some (.tupC (st', m', ok)) =>
            match runEval n env (.members rest inits (membs.set i m') st') with
            | some (.tupM (st'', ms'', anyHang)) => some (.tupM (st'', ms'', anyHang || !ok))
            | _ => none
          | _ => none
        | _, _ => runEval n env (.members rest inits membs st)
    | .completeM b res st =>
      match b with
      | .group ms => some (.tupC (st, .group ms, true))
      | .node d o =>
        let st1 := { st with trace := st.trace ++ [Ev.settled d.path] }
        let d1 := { d with hasExecuted := true, isExecuting := false, output := res.args }
        let st2 := { st1 with records := st1.records ++ [Rec.mk d.path res.path res.args] }
        let st3 := { st2 with args := merge st2.args res.args }
        match selPath res.path with
        | some p =>
          let d2 := { d1 with outputPath := some p }
          match o with
          | none =>
            some (.tupC ({ st3 with prom := promReject st3.prom (.typeError ("Cannot read outputs of null")) },
              .node d2 o, true))
          | some m =>
            let sub := lookupOut m p
            match runEval n env (.branch sub 0 false st3) with
            | some (.rb r) =>
              let o' := if sub.isSome then some (setOut m p r.branches) else some m
              match r.ret with
              | .finished _ => some (.tupC (r.st, .node d2 o', true))
              | .thrownS e => some (.tupC ({ r.st with prom := promReject r.st.prom e }, .node d2 o', true))
              | .rejectedP e => some (.tupC ({ r.st with prom := promReject r.st.prom e }, .node d2 o', true))
              | .hang => some (.tupC (r.st, .node d2 o', false))
            | _ => none
        | none => some (.tupC (st3, .node d1 o, true))

/-- Extracting a branch-runner result from an `Ans`. -/
def ansRB : Option Ans → Option RB
  | some (.rb r) => some r
  | _ => none

/-- Extracting a members-pass result from an `Ans`. -/
def ansTupM : Option Ans → Option (St × List BTree × Bool)
  | some (.tupM t) => some t
  | _ => none

/-- Extracting a member-completion result from an `Ans`. -/
def ansTupC : Option Ans → Option (St × BTree × Bool)
  | some (.tupC t) => some t
  | _ => none

/-! ### Basic lemmas about the embedded helpers -/

/-- Setting a list element does not change the elements after it. -/
theorem drop_set_succ {α : Type} (l : List α) (i : Nat) (x : α) :
    (l.set i x).drop (i + 1) = l.drop (i + 1) := by
  induction l generalizing i with
  | nil => simp
  | cons a t ih =>
    cases i with
    | zero => simp
    | succ j => simpa using ih j

/-- The head of a dropped suffix is the element at that index. -/
theorem get?_of_drop_cons {α : Type} {seq : List α} {idx : Nat} {b : α} {tl : List α}
    (h : seq.drop idx = b :: tl) : seq.get? idx = some b := by
  have := List.get?_drop seq idx 0
  rw [h] at this
  simpa using this.symm

/-- Dropping one more element after a cons-shaped suffix. -/
theorem drop_succ_of_drop_cons {α : Type} {seq : List α} {idx : Nat} {b : α} {tl : List α}
    (h : seq.drop idx = b :: tl) : seq.drop (idx + 1) = tl := by
  have := List.drop_drop 1 idx seq
  rw [h] at this
  simpa using this.symm

/-- An index beyond the end of the suffix means the element is absent. -/
theorem get?_of_drop_nil {α : Type} {seq : List α} {idx : Nat}
    (h : seq.drop idx = []) : seq.get? idx = none := by
  have := List.get?_drop seq idx 0
  rw [h] at this
  simpa using this.symm

/-- `isEqualArrays` decides list equality of paths. -/
theorem isEqualArrays_iff : ∀ (a b : List PKey), isEqualArrays a b = true ↔ a = b
  | [], [] => by simp [isEqualArrays]
  | [], _ :: _ => by simp [isEqualArrays]
  | _ :: _, [] => by simp [isEqualArrays]
  | x :: t, y :: u => by
    have ih := isEqualArrays_iff t u
    simp only [isEqualArrays, Bool.and_eq_true, beq_iff_eq, List.all_eq_true] at ih ⊢
    simp only [List.zip_cons_cons, List.length_cons, List.mem_cons, List.cons.injEq]
    constructor
    · rintro ⟨hl, hall⟩
      have hxy := hall (x, y) (Or.inl rfl)
      simp only [beq_iff_eq] at hxy
      refine ⟨hxy, ih.mp ⟨by omega, fun p hp => hall p (Or.inr hp)⟩⟩
    · rintro ⟨hxy, htu⟩
      obtain ⟨hl, hall⟩ := ih.mpr htu
      refine ⟨by omega, fun p hp => ?_⟩
      rcases hp with hp | hp
      · subst hp
        simp [hxy]
      · exact hall p hp

/-! ### Soundness of the defunctionalized evaluator -/

/-- Every result `runEval` computes is the result of the corresponding
primary interpreter function: the two transcriptions of the source
agree.  Proved by one induction on fuel across the five call shapes. -/
theorem runEval_sound : ∀ (fuel : Nat) (env : Env),
    (∀ b i ro st r, runEval fuel env (.branch b i ro st) = some (.rb r) →
      runBranch fuel env b i ro st = some r) ∧
    (∀ seq i d o ro st r, runEval fuel env (.syncB seq i d o ro st) = some (.rb r) →
      runSyncBranch fuel env seq i d o ro st = some r) ∧
    (∀ seq i ms ro st r, runEval fuel env (.asyncB seq i ms ro st) = some (.rb r) →
      runAsyncBranch fuel env seq i ms ro st = some r) ∧
    (∀ ord inits mbs st x, runEval fuel env (.members ord inits mbs st) = some (.tupM x) →
      runMembers fuel env ord inits mbs st = some x) ∧
    (∀ b res st x, runEval fuel env (.completeM b res st) = some (.tupC x) →
      completeMember fuel env b res st = some x) := by
  intro fuel
  induction fuel with
  | zero =>
    intro env
    refine ⟨fun b i ro st r h => ?_, fun seq i d o ro st r h => ?_,
      fun seq i ms ro st r h => ?_, fun ord inits mbs st x h => ?_,
      fun b res st x h => ?_⟩ <;> simp [runEval] at h
  | succ n ih =>
    intro env
    obtain ⟨ih1, ih2, ih3, ih4, ih5⟩ := ih env
    refine ⟨?_, ?_, ?_, ?_, ?_⟩
    · -- branch
      intro b i ro st r h
      cases b with
      | none =>
        simp only [runEval] at h
        injection h with h
        injection h with h
        subst h
        rfl
      | some bs =>
        simp only [runEval] at h
        split at h
        · rename_i hg
          split at h
          · rename_i hroot
            injection h with h
            injection h with h
            subst h
            simp only [runBranch, hg]
            rw [if_pos hroot]
          · rename_i hroot
            injection h with h
            injection h with h
            subst h
            simp only [runBranch, hg]
            rw [if_neg hroot]
        · rename_i ms hg
          simp only [runBranch, hg]
          exact ih3 _ _ _ _ _ _ h
        · rename_i d o hg
          simp only [runBranch, hg]
          exact ih2 _ _ _ _ _ _ _ h
    · -- syncB
      intro seq i d o ro st r h
      simp only [runEval] at h
      split at h
      · rename_i hbeh
        injection h with h
        injection h with h
        subst h
        simp only [runSyncBranch, hbeh]
      · rename_i beh hbeh
        split at h
        · rename_i hact
          injection h with h
          injection h with h
          subst h
          simp only [runSyncBranch, hbeh, hact]
        · rename_i c hact
          split at h
          · rename_i e hexc
            injection h with h
            injection h with h
            subst h
            simp only [runSyncBranch, hbeh, hact, hexc]
          · rename_i res hexc
            split at h
            · rename_i p hsel
              split at h
              · injection h with h
                injection h with h
                subst h
                simp only [runSyncBranch, hbeh, hact, hexc, hsel]
              · rename_i m
                split at h
                · rename_i rsub hsub
                  have hsubB := ih1 _ _ _ _ _ hsub
                  split at h
                  · rename_i e hret
                    injection h with h
                    injection h with h
                    subst h
                    simp only [runSyncBranch, hbeh, hact, hexc, hsel, hsubB, hret]
                  · rename_i hret
                    split at h
                    · rename_i r2 hrest
                      have hrestB := ih1 _ _ _ _ _ hrest
                      injection h with h
                      injection h with h
                      subst h
                      simp only [runSyncBranch, hbeh, hact, hexc, hsel, hsubB, hret, hrestB]
                    · rename_i hno
                      exact absurd h (by simp)
                  · rename_i hret
                    split at h
                    · rename_i r2 hrest
                      have hrestB := ih1 _ _ _ _ _ hrest
                      split at h
                      · rename_i e hret2
                        injection h with h
                        injection h with h
                        subst h
                        simp only [runSyncBranch, hbeh, hact, hexc, hsel, hsubB, hret, hrestB, hret2]
                      · rename_i hret2
                        injection h with h
                        injection h with h
                        subst h
                        simp only [runSyncBranch, hbeh, hact, hexc, hsel, hsubB, hret, hrestB]
                    · rename_i hno
                      exact absurd h (by simp)
                  · rename_i e hret
                    injection h with h
                    injection h with h
                    subst h
                    simp only [runSyncBranch, hbeh, hact, hexc, hsel, hsubB, hret]
                  · rename_i hret
                    injection h with h
                    injection h with h
                    subst h
                    simp only [runSyncBranch, hbeh, hact, hexc, hsel, hsubB, hret]
                · rename_i hno
                  exact absurd h (by simp)
            · rename_i hsel
              split at h
              · rename_i r2 hrest
                have hrestB := ih1 _ _ _ _ _ hrest
                split at h
                · rename_i e hret2
                  injection h with h
                  injection h with h
                  subst h
                  simp only [runSyncBranch, hbeh, hact, hexc, hsel, hrestB, hret2]
                · rename_i hret2
                  injection h with h
                  injection h with h
                  subst h
                  simp only [runSyncBranch, hbeh, hact, hexc, hsel, hrestB]
              · rename_i hno
                exact absurd h (by simp)
    · -- asyncB
      intro seq i ms ro st r h
      simp only [runEval] at h
      split at h
      · rename_i e herr
        injection h with h
        injection h with h
        subst h
        simp only [runAsyncBranch, herr]
      · rename_i herr
        split at h
        · rename_i stC ms2 anyHang hmem
          have hmemB := ih4 _ _ _ _ _ hmem
          split at h
          · rename_i hhang
            injection h with h
            injection h with h
            subst h
            simp only [runAsyncBranch, herr, hmemB]
            rw [if_pos hhang]
          · rename_i hhang
            split at h
            · rename_i rr hrest
              have hrestB := ih1 _ _ _ _ _ hrest
              injection h with h
              injection h with h
              subst h
              simp only [runAsyncBranch, herr, hmemB, hrestB]
              rw [if_neg hhang]
            · rename_i hno
              exact absurd h (by simp)
        · rename_i hno
          exact absurd h (by simp)
    · -- members
      intro ord inits mbs st x h
      cases ord with
      | nil =>
        simp only [runEval] at h
        injection h with h
        injection h with h
        subst h
        rfl
      | cons j rest =>
        simp only [runEval] at h
        cases hi : inits.get? j with
        | some mi =>
          cases mi with
          | willSettle res =>
            cases hm : mbs.get? j with
            | some m =>
              simp only [hi, hm] at h
              split at h
              · rename_i st2 m2 ok hcomp
                have hcompB := ih5 _ _ _ _ hcomp
                split at h
                · rename_i st3 ms3 anyHang hrec
                  have hrecB := ih4 _ _ _ _ _ hrec
                  injection h with h
                  injection h with h
                  subst h
                  simp only [runMembers, hi, hm, hcompB, hrecB]
                · rename_i hno
                  exact absurd h (by simp)
              · rename_i hno
                exact absurd h (by simp)
            | none =>
              simp only [hi, hm] at h
              have hrecB := ih4 _ _ _ _ _ h
              simp only [runMembers, hi, hm]
              exact hrecB
          | never =>
            cases hm : mbs.get? j with
            | some m =>
              simp only [hi, hm] at h
              have hrecB := ih4 _ _ _ _ _ h
              simp only [runMembers, hi, hm]
              exact hrecB
            | none =>
              simp only [hi, hm] at h
              have hrecB := ih4 _ _ _ _ _ h
              simp only [runMembers, hi, hm]
              exact hrecB
        | none =>
          cases hm : mbs.get? j with
          | some m =>
            simp only [hi, hm] at h
            have hrecB := ih4 _ _ _ _ _ h
            simp only [runMembers, hi, hm]
            exact hrecB
          | none =>
            simp only [hi, hm] at h
            have hrecB := ih4 _ _ _ _ _ h
            simp only [runMembers, hi, hm]
            exact hrecB
    · -- completeM
      intro b res st x h
      cases b with
      | group ms =>
        simp only [runEval] at h
        injection h with h
        injection h with h
        subst h
        rfl
      | node d o =>
        simp only [runEval] at h
        split at h
        · rename_i p hsel
          split at h
          · injection h with h
            injection h with h
            subst h
            simp only [completeMember, hsel]
          · rename_i m
            split at h
            · rename_i rsub hsub
              have hsubB := ih1 _ _ _ _ _ hsub
              split at h
              · rename_i fin hret
                injection h with h
                injection h with h
                subst h
                simp only [completeMember, hsel, hsubB, hret]
              · rename_i e hret
                injection h with h
                injection h with h
                subst h
                simp only [completeMember, hsel, hsubB, hret]
              · rename_i e hret
                injection h with h
                injection h with h
                subst h
                simp only [completeMember, hsel, hsubB, hret]
              · rename_i hret
                injection h with h
                injection h with h
                subst h
                simp only [completeMember, hsel, hsubB, hret]
            · rename_i hno
              exact absurd h (by simp)
        · rename_i hsel
          injection h with h
          injection h with h
          subst h
          simp only [completeMember, hsel]

/-- Transport of a concrete `runEval` branch computation to
`runBranch`. -/
theorem runBranch_evalE (fuel : Nat) (env : Env) (b : Option (List BTree)) (i : Nat)
    (ro : Bool) (st : St) (r : RB)
    (h : ansRB (runEval fuel env (.branch b i ro st)) = some r) :
    runBranch fuel env b i ro st = some r := by
  cases hx : runEval fuel env (.branch b i ro st) with
  | none => rw [hx] at h; simp [ansRB] at h
  | some a =>
    cases a with
    | rb rr =>
      rw [hx] at h
      simp only [ansRB, Option.some.injEq] at h
      subst h
      exact (runEval_sound fuel env).1 _ _ _ _ _ hx
    | tupM t => rw [hx] at h; simp [ansRB] at h
    | tupC t => rw [hx] at h; simp [ansRB] at h

/-- Transport of a concrete `runEval` members-pass computation to
`runMembers`. -/
theorem runMembers_evalE (fuel : Nat) (env : Env) (ord : List Nat)
    (inits : List MemberInit) (mbs : List BTree) (st : St) (x : St × List BTree × Bool)
    (h : ansTupM (runEval fuel env (.members ord inits mbs st)) = some x) :
    runMembers fuel env ord inits mbs st = some x := by
  cases hx : runEval fuel env (.members ord inits mbs st) with
  | none => rw [hx] at h; simp [ansTupM] at h
  | some a =>
    cases a with
    | tupM t =>
      rw [hx] at h
      simp only [ansTupM, Option.some.injEq] at h
      subst h
      exact (runEval_sound fuel env).2.2.2.1 _ _ _ _ _ hx
    | rb rr => rw [hx] at h; simp [ansTupM] at h
    | tupC t => rw [hx] at h; simp [ansTupM] at h

/-- Transport of a concrete `runEval` member-completion computation to
`completeMember`. -/
theorem completeMember_evalE (fuel : Nat) (env : Env) (b : BTree) (res : OutRes)
    (st : St) (x : St × BTree × Bool)
    (h : ansTupC (runEval fuel env (.completeM b res st)) = some x) :
    completeMember fuel env b res st = some x := by
  cases hx : runEval fuel env (.completeM b res st) with
  | none => rw [hx] at h; simp [ansTupC] at h
  | some a =>
    cases a with
    | tupC t =>
      rw [hx] at h
      simp only [ansTupC, Option.some.injEq] at h
      subst h
      exact (runEval_sound fuel env).2.2.2.2 _ _ _ _ hx
    | rb rr => rw [hx] at h; simp [ansTupC] at h
    | tupM t => rw [hx] at h; simp [ansTupC] at h

/-- Transport of a concrete `runEval` computation to `runSignal`: a
root run that returns to the executor with a `finished` marker resolves
the observable outcome from the final state (the executor converts only
synchronous exceptions). -/
theorem runSignal_eval (fuel : Nat) (env : Env) (tree : List BTree)
    (args : List (String × JSVal)) (recs : List Rec) (sch : List (List Nat))
    (t0 t1 : Int) (r : RB) (fin : Bool)
    (h : ansRB (runEval fuel env (.branch (some tree) 0 true
      ⟨args, recs, checkArgs args .unsettled, [], sch, t0, t1⟩)) = some r)
    (hfin : r.ret = .finished fin) :
    runSignal fuel env tree args recs sch t0 t1 =
      some ⟨r.st.prom, r.st.trace, r.branches, r.st.records, r.st.args⟩ := by
  have hb := runBranch_evalE _ _ _ _ _ _ _ h
  simp only [runSignal, hb, hfin]

/-- A well-formed trace event: an invocation's context carries exactly
the store methods `getStateMethods` grants for its branch kind. -/
def EvOk : Ev → Prop
  | .invoked _ a c => c.getState = (getStateMethods a).1 ∧ c.dispatch = (getStateMethods a).2
  | .settled _ => True

/-- The frame invariant relating a run state to any later run state:
the trace and the record list only grow at the end, every added event is
well formed, and a settled promise never changes again. -/
def StInv (s t : St) : Prop :=
  s.trace <+: t.trace ∧ s.records <+: t.records ∧
  (∀ ev ∈ t.trace, ev ∈ s.trace ∨ EvOk ev) ∧
  (s.prom ≠ .unsettled → t.prom = s.prom)

theorem StInv.refl (s : St) : StInv s s :=
  ⟨List.prefix_rfl, List.prefix_rfl, fun _ h => Or.inl h, fun _ => rfl⟩

theorem StInv.trans {a b c : St} (h1 : StInv a b) (h2 : StInv b c) : StInv a c := by
  obtain ⟨t1, r1, e1, p1⟩ := h1
  obtain ⟨t2, r2, e2, p2⟩ := h2
  refine ⟨t1.trans t2, r1.trans r2, fun ev h => ?_, fun hp => ?_⟩
  · rcases e2 ev h with h' | h'
    · exact e1 ev h'
    · exact Or.inr h'
  · rw [p2, p1 hp]
    rw [p1 hp]
    exact hp

/-- Build the frame invariant from explicit deltas. -/
theorem StInv.parts {s t : St} (evs : List Ev) (htr : t.trace = s.trace ++ evs)
    (hevs : ∀ ev ∈ evs, EvOk ev) (dr : List Rec) (hrec : t.records = s.records ++ dr)
    (hp : s.prom ≠ .unsettled → t.prom = s.prom) : StInv s t := by
  refine ⟨htr ▸ List.prefix_append _ _, hrec ▸ List.prefix_append _ _, fun ev h => ?_, hp⟩
  rw [htr] at h
  rcases List.mem_append.mp h with h' | h'
  · exact Or.inl h'
  · exact Or.inr (hevs ev h')

/-- Rejecting is a no-op on a settled promise. -/
theorem promReject_settled {p : Prom} (h : p ≠ .unsettled) (e : RunErr) :
    promReject p e = p := by
  cases p with
  | unsettled => exact absurd rfl h
  | resolvedWith s => rfl
  | rejectedWith e' => rfl

/-- Resolving is a no-op on a settled promise. -/
theorem promResolve_settled {p : Prom} (h : p ≠ .unsettled) (s : Signal) :
    promResolve p s = p := by
  cases p with
  | unsettled => exact absurd rfl h
  | resolvedWith s' => rfl
  | rejectedWith e' => rfl

/-- A rejection call never produces a resolved promise that was not
already resolved. -/
theorem promReject_resolved {p : Prom} {e : RunErr} {sig : Signal}
    (h : promReject p e = .resolvedWith sig) : p = .resolvedWith sig := by
  cases p with
  | unsettled => exact absurd h (by simp [promReject])
  | resolvedWith s' => exact h
  | rejectedWith e' => exact absurd h (by simp [promReject])

/-- A resolution call yields a resolved promise only from an already
resolved promise or by resolving an unsettled one with its argument. -/
theorem promResolve_resolved {p : Prom} {s : Signal} {sig : Signal}
    (h : promResolve p s = .resolvedWith sig) :
    p = .resolvedWith sig ∨ (p = .unsettled ∧ sig = s) := by
  cases p with
  | unsettled =>
    refine Or.inr ⟨rfl, ?_⟩
    simpa [promResolve] using h.symm
  | resolvedWith s' => exact Or.inl h
  | rejectedWith e' => exact absurd h (by simp [promResolve])

/-- Whether a run stage may newly resolve the run promise, and with
which signal fields when it does. -/
def ResolveOk (s t : St) (br : List BTree) (isRoot : Bool) : Prop :=
  ∀ sig, t.prom = .resolvedWith sig → s.prom = .resolvedWith sig ∨
    (isRoot = true ∧ sig.args = t.args ∧ sig.asyncActionResults = t.records ∧
      sig.isExecuting = false ∧ sig.duration = 0 ∧ sig.branches = br)

theorem ResolveOk.of_same {s t : St} (h : t.prom = s.prom) (br : List BTree) (isRoot : Bool) :
    ResolveOk s t br isRoot := fun _ hsig => Or.inl (h ▸ hsig)

/-- Every member index below the group size occurs in the completion
order induced by an oracle entry. -/
theorem completionOrder_mem {n : Nat} (perm : List Nat) {i : Nat} (h : i < n) :
    i ∈ completionOrder n perm := by
  unfold completionOrder
  by_cases hm : i ∈ (perm.filter (fun j => decide (j < n))).dedup
  · exact List.mem_append_left _ hm
  · refine List.mem_append_right _ ?_
    rw [List.mem_filter]
    exact ⟨List.mem_range.mpr h, decide_eq_true hm⟩

/-- Every index in a completion order is a valid member index. -/
theorem completionOrder_lt {n : Nat} {perm : List Nat} {i : Nat}
    (h : i ∈ completionOrder n perm) : i < n := by
  unfold completionOrder at h
  rcases List.mem_append.mp h with h' | h'
  · have := List.mem_dedup.mp h'
    have := List.mem_filter.mp this
    simpa using this.2
  · have := List.mem_filter.mp h'
    exact List.mem_range.mp this.1

/-- Events emitted while initiating one member are well formed. -/
theorem initMember_evs_ok (env : Env) (st : St) (b : BTree) :
    ∀ ev ∈ (initMember env st b).2.1, EvOk ev := by
  unfold initMember
  cases b with
  | group ms => simp
  | node d o =>
    dsimp only
    split
    · simp
    · split
      · simp
      · split
        · intro ev hev
          simp only [List.mem_singleton] at hev
          subst hev
          exact ⟨rfl, rfl⟩
        · intro ev hev
          simp only [List.mem_singleton] at hev
          subst hev
          exact ⟨rfl, rfl⟩
        · split
          · intro ev hev
            simp only [List.mem_singleton] at hev
            subst hev
            exact ⟨rfl, rfl⟩
          · intro ev hev
            simp only [List.mem_singleton] at hev
            subst hev
            exact ⟨rfl, rfl⟩

/-- Shape of a successful member-initiation pass: annotated members and
initiation outcomes line up with the source members, and the emitted
events are the members' initiation events in source order. -/
theorem initMembers_spec (env : Env) (st : St) :
    ∀ (ms ms1 : List BTree) (inits : List MemberInit) (evs : List Ev),
      initMembers env st ms = (ms1, inits, evs, none) →
      ms1.length = ms.length ∧ inits.length = ms.length ∧
      evs = List.join (ms.map (fun b => (initMember env st b).2.1)) ∧
      (∀ i b, ms.get? i = some b → ms1.get? i = some (initMember env st b).1 ∧
        ∃ mi, (initMember env st b).2.2 = Except.ok mi ∧ inits.get? i = some mi) := by
  intro ms
  induction ms with
  | nil =>
    intro ms1 inits evs h
    simp only [initMembers, Prod.mk.injEq] at h
    obtain ⟨h1, h2, h3, -⟩ := h
    subst h1; subst h2; subst h3
    exact ⟨rfl, rfl, rfl, fun i b hb => by simp at hb⟩
  | cons m rest ih =>
    intro ms1 inits evs h
    simp only [initMembers] at h
    rcases hm : initMember env st m with ⟨m', mevs, mres⟩
    rw [hm] at h
    cases mres with
    | error e => simp at h
    | ok mi =>
      rcases hr : initMembers env st rest with ⟨rest', mis, evs', err⟩
      rw [hr] at h
      simp only [Prod.mk.injEq] at h
      obtain ⟨h1, h2, h3, h4⟩ := h
      subst h1; subst h2; subst h3
      obtain ⟨l1, l2, l3, l4⟩ := ih rest' mis evs' (by rw [hr, h4])
      refine ⟨by simp [l1], by simp [l2], ?_, ?_⟩
      · simp only [List.map_cons, List.join_cons]
        rw [hm, l3]
      · intro i b hb
        cases i with
        | zero =>
          simp only [List.get?] at hb
          injection hb with hb
          subst hb
          exact ⟨by simp [hm], mi, by simp [hm], rfl⟩
        | succ j =>
          simp only [List.get?] at hb ⊢
          exact l4 j b hb

theorem EvOk.invokedCtx (p : List PKey) (a : Bool) (args : List (String × JSVal)) :
    EvOk (Ev.invoked p a (createActionArgs args a)) := ⟨rfl, rfl⟩

theorem EvOk.settledEv (p : List PKey) : EvOk (Ev.settled p) := trivial

theorem StInv.addEvs (st : St) (evs : List Ev) (h : ∀ ev ∈ evs, EvOk ev)
    (args' : List (String × JSVal)) (sch' : List (List Nat)) :
    StInv st ⟨args', st.records, st.prom, st.trace ++ evs, sch', st.start, st.endTime⟩ :=
  StInv.parts evs rfl h [] (by simp) (fun _ => rfl)

theorem StInv.addEvs2 (st : St) (e1 e2 : Ev) (h1 : EvOk e1) (h2 : EvOk e2)
    (args' : List (String × JSVal)) (sch' : List (List Nat)) :
    StInv st ⟨args', st.records, st.prom, (st.trace ++ [e1]) ++ [e2], sch', st.start, st.endTime⟩ := by
  refine StInv.parts [e1, e2] (by simp) ?_ [] (by simp) (fun _ => rfl)
  intro ev hev
  simp only [List.mem_cons, List.mem_singleton] at hev
  rcases hev with rfl | rfl | h
  · exact h1
  · exact h2
  · simp at h

theorem StInv.addEv1Rec (st : St) (e1 : Ev) (h1 : EvOk e1) (rc : Rec)
    (args' : List (String × JSVal)) (sch' : List (List Nat)) :
    StInv st ⟨args', st.records ++ [rc], st.prom, st.trace ++ [e1], sch', st.start, st.endTime⟩ := by
  refine StInv.parts [e1] rfl ?_ [rc] rfl (fun _ => rfl)
  intro ev hev
  simp only [List.mem_singleton] at hev
  subst hev
  exact h1

theorem StInv.rejectOnly (s : St) (e : RunErr) :
    StInv s { s with prom := promReject s.prom e } :=
  StInv.parts [] (by simp) (by simp) [] (by simp) (fun hs => promReject_settled hs e)

/-- Events emitted by a member-initiation pass are well formed, whether
or not the pass aborted on a throw. -/
theorem initMembers_evs_ok (env : Env) (st : St) :
    ∀ (ms : List BTree), ∀ ev ∈ (initMembers env st ms).2.2.1, EvOk ev := by
  intro ms
  induction ms with
  | nil => simp [initMembers]
  | cons m rest ih =>
    intro ev hev
    simp only [initMembers] at hev
    rcases hm : initMember env st m with ⟨m', mevs, mres⟩
    rw [hm] at hev
    cases mres with
    | error e =>
      simp only at hev
      have := initMember_evs_ok env st m
      rw [hm] at this
      exact this ev hev
    | ok mi =>
      rcases hr : initMembers env st rest with ⟨rest', mis, evs', err⟩
      rw [hr] at hev
      simp only [List.mem_append] at hev
      rcases hev with hev | hev
      · have := initMember_evs_ok env st m
        rw [hm] at this
        exact this ev hev
      · have := ih ev
        rw [hr] at this
        exact this hev

/-- The frame properties of every interpreter stage: traces and record
lists only grow, added events are well formed, settled promises stay
settled, and a fresh resolution only happens at the end of the root
sequence, with the signal descriptor built from the final state (its
own `duration` field being `0`). -/
theorem masterAll : ∀ fuel : Nat,
    (∀ env branches idx isRoot st r, runBranch fuel env branches idx isRoot st = some r →
      StInv st r.st ∧ ResolveOk st r.st r.branches isRoot) ∧
    (∀ env seq idx d o isRoot st r, runSyncBranch fuel env seq idx d o isRoot st = some r →
      StInv st r.st ∧ ResolveOk st r.st r.branches isRoot) ∧
    (∀ env seq idx ms isRoot st r, runAsyncBranch fuel env seq idx ms isRoot st = some r →
      StInv st r.st ∧ ResolveOk st r.st r.branches isRoot) ∧
    (∀ env order inits members st x, runMembers fuel env order inits members st = some x →
      StInv st x.1 ∧ ResolveOk st x.1 [] false) ∧
    (∀ env b res st x, completeMember fuel env b res st = some x →
      StInv st x.1 ∧ ResolveOk st x.1 [] false) := by
  intro fuel
  induction fuel with
  | zero =>
    refine ⟨fun env branches idx isRoot st r h => ?_,
      fun env seq idx d o isRoot st r h => ?_,
      fun env seq idx ms isRoot st r h => ?_,
      fun env order inits members st x h => ?_,
      fun env b res st x h => ?_⟩ <;>
      simp [runBranch, runSyncBranch, runAsyncBranch, runMembers, completeMember] at h
  | succ n ih =>
    obtain ⟨ihB, ihS, ihA, ihM, ihC⟩ := ih
    refine ⟨?_, ?_, ?_, ?_, ?_⟩
    -- runBranch
    · intro env branches idx isRoot st r h
      simp only [runBranch] at h
      split at h
      · injection h with h
        subst h
        exact ⟨StInv.refl st, ResolveOk.of_same rfl _ _⟩
      · split at h
        · split at h
          · rename_i hroot
            injection h with h
            subst h
            constructor
            · exact StInv.parts [] (by simp) (by simp) [] (by simp)
                (fun hs => promResolve_settled hs _)
            · intro sig hs
              rcases promResolve_resolved hs with hpre | ⟨hun, hsig⟩
              · exact Or.inl hpre
              · subst hsig
                exact Or.inr ⟨hroot, rfl, rfl, rfl, rfl, rfl⟩
          · injection h with h
            subst h
            exact ⟨StInv.refl st, ResolveOk.of_same rfl _ _⟩
        · exact ihA _ _ _ _ _ _ _ h
        · exact ihS _ _ _ _ _ _ _ _ h
    -- runSyncBranch
    · intro env seq idx d o isRoot st r h
      simp only [runSyncBranch] at h
      split at h
      · injection h with h
        subst h
        exact ⟨StInv.rejectOnly st _, fun sig hs => Or.inl (promReject_resolved hs)⟩
      · rename_i beh
        split at h
        · injection h with h
          subst h
          refine ⟨?_, fun sig hs => Or.inl (promReject_resolved hs)⟩
          exact (StInv.addEvs st [Ev.invoked d.path false (createActionArgs st.args false)]
            (fun ev hev => by
              simp only [List.mem_singleton] at hev
              subst hev
              exact EvOk.invokedCtx _ _ _) _ _).trans (StInv.rejectOnly _ _)
        · rename_i c
          split at h
          · injection h with h
            subst h
            refine ⟨?_, fun sig hs => Or.inl (promReject_resolved hs)⟩
            exact (StInv.addEvs st [Ev.invoked d.path false (createActionArgs st.args false)]
              (fun ev hev => by
                simp only [List.mem_singleton] at hev
                subst hev
                exact EvOk.invokedCtx _ _ _) _ _).trans (StInv.rejectOnly _ _)
          · rename_i res heqres
            split at h
            · rename_i p hselp
              split at h
              · injection h with h
                subst h
                refine ⟨?_, fun sig hs => Or.inl (promReject_resolved hs)⟩
                exact (StInv.addEvs2 st _ _ (EvOk.invokedCtx d.path false st.args)
                  (EvOk.settledEv d.path) _ _).trans (StInv.rejectOnly _ _)
              · rename_i m
                split at h
                · exact absurd h (by simp)
                · rename_i rsub heqsub
                  obtain ⟨hs1, hr1⟩ := ihB _ _ _ _ _ _ heqsub
                  split at h
                  · injection h with h
                    subst h
                    refine ⟨((StInv.addEvs2 st _ _ (EvOk.invokedCtx d.path false st.args)
                      (EvOk.settledEv d.path) _ _).trans hs1).trans (StInv.rejectOnly _ _), ?_⟩
                    intro sig hs
                    rcases hr1 sig (promReject_resolved hs) with hpre | hf
                    · exact Or.inl hpre
                    · exact absurd hf.1 (by simp)
                  · split at h
                    · exact absurd h (by simp)
                    · rename_i r2 heqrest
                      obtain ⟨hs2, hr2⟩ := ihB _ _ _ _ _ _ heqrest
                      injection h with h
                      subst h
                      refine ⟨((StInv.addEvs2 st _ _ (EvOk.invokedCtx d.path false st.args)
                        (EvOk.settledEv d.path) _ _).trans hs1).trans hs2, ?_⟩
                      intro sig hs
                      rcases hr2 sig hs with hpre | hf
                      · rcases hr1 sig hpre with hpre2 | hf2
                        · exact Or.inl hpre2
                        · exact absurd hf2.1 (by simp)
                      · exact Or.inr hf
                  · split at h
                    · exact absurd h (by simp)
                    · rename_i r2 heqrest
                      obtain ⟨hs2, hr2⟩ := ihB _ _ _ _ _ _ heqrest
                      split at h
                      · injection h with h
                        subst h
                        refine ⟨(((StInv.addEvs2 st _ _ (EvOk.invokedCtx d.path false st.args)
                          (EvOk.settledEv d.path) _ _).trans hs1).trans hs2).trans
                            (StInv.rejectOnly _ _), ?_⟩
                        intro sig hs
                        rcases hr2 sig (promReject_resolved hs) with hpre | hf
                        · rcases hr1 sig hpre with hpre2 | hf2
                          · exact Or.inl hpre2
                          · exact absurd hf2.1 (by simp)
                        · exact Or.inr hf
                      · injection h with h
                        subst h
                        refine ⟨((StInv.addEvs2 st _ _ (EvOk.invokedCtx d.path false st.args)
                          (EvOk.settledEv d.path) _ _).trans hs1).trans hs2, ?_⟩
                        intro sig hs
                        rcases hr2 sig hs with hpre | hf
                        · rcases hr1 sig hpre with hpre2 | hf2
                          · exact Or.inl hpre2
                          · exact absurd hf2.1 (by simp)
                        · exact Or.inr hf
                  · injection h with h
                    subst h
                    refine ⟨(StInv.addEvs2 st _ _ (EvOk.invokedCtx d.path false st.args)
                      (EvOk.settledEv d.path) _ _).trans hs1, ?_⟩
                    intro sig hs
                    rcases hr1 sig hs with hpre | hf
                    · exact Or.inl hpre
                    · exact absurd hf.1 (by simp)
                  · injection h with h
                    subst h
                    refine ⟨(StInv.addEvs2 st _ _ (EvOk.invokedCtx d.path false st.args)
                      (EvOk.settledEv d.path) _ _).trans hs1, ?_⟩
                    intro sig hs
                    rcases hr1 sig hs with hpre | hf
                    · exact Or.inl hpre
                    · exact absurd hf.1 (by simp)
            · split at h
              · exact absurd h (by simp)
              · rename_i r2 heqrest
                obtain ⟨hs2, hr2⟩ := ihB _ _ _ _ _ _ heqrest
                split at h
                · injection h with h
                  subst h
                  refine ⟨((StInv.addEvs2 st _ _ (EvOk.invokedCtx d.path false st.args)
                    (EvOk.settledEv d.path) _ _).trans hs2).trans (StInv.rejectOnly _ _), ?_⟩
                  intro sig hs
                  rcases hr2 sig (promReject_resolved hs) with hpre | hf
                  · exact Or.inl hpre
                  · exact Or.inr hf
                · injection h with h
                  subst h
                  refine ⟨(StInv.addEvs2 st _ _ (EvOk.invokedCtx d.path false st.args)
                    (EvOk.settledEv d.path) _ _).trans hs2, ?_⟩
                  intro sig hs
                  rcases hr2 sig hs with hpre | hf
                  · exact Or.inl hpre
                  · exact Or.inr hf
    -- runAsyncBranch
    · intro env seq idx ms isRoot st r h
      simp only [runAsyncBranch] at h
      have hevs : ∀ ev ∈ (initMembers env st ms).2.2.1, EvOk ev := initMembers_evs_ok env st ms
      split at h
      · injection h with h
        subst h
        exact ⟨StInv.addEvs st _ hevs _ _, ResolveOk.of_same rfl _ _⟩
      · split at h
        · exact absurd h (by simp)
        · rename_i heqm
          obtain ⟨hm1, hm2⟩ := ihM _ _ _ _ _ _ heqm
          split at h
          · injection h with h
            subst h
            refine ⟨(StInv.addEvs st _ hevs _ _).trans hm1, ?_⟩
            intro sig hs
            rcases hm2 sig hs with hpre | hf
            · exact Or.inl hpre
            · exact absurd hf.1 (by simp)
          · split at h
            · exact absurd h (by simp)
            · rename_i r' heqr
              obtain ⟨hb1, hb2⟩ := ihB _ _ _ _ _ _ heqr
              injection h with h
              subst h
              refine ⟨((StInv.addEvs st _ hevs _ _).trans hm1).trans hb1, ?_⟩
              intro sig hs
              rcases hb2 sig hs with hpre | hf
              · rcases hm2 sig hpre with hpre2 | hf2
                · exact Or.inl hpre2
                · exact absurd hf2.1 (by simp)
              · exact Or.inr hf
    -- runMembers
    · intro env order inits members st x h
      simp only [runMembers] at h
      split at h
      · injection h with h
        subst h
        exact ⟨StInv.refl st, ResolveOk.of_same rfl _ _⟩
      · split at h
        · rename_i i rest res m hi hm
          split at h
          · exact absurd h (by simp)
          · rename_i st' m' ok heqc
            split at h
            · exact absurd h (by simp)
            · rename_i st2 ms2 anyHang heqm
              injection h with h
              subst h
              obtain ⟨hc1, hc2⟩ := ihC _ _ _ _ _ heqc
              obtain ⟨hm1, hm2⟩ := ihM _ _ _ _ _ _ heqm
              constructor
              · exact hc1.trans hm1
              · intro sig hs
                rcases hm2 sig hs with hpre | hf
                · rcases hc2 sig hpre with hpre2 | hf2
                  · exact Or.inl hpre2
                  · exact absurd hf2.1 (by simp)
                · exact absurd hf.1 (by simp)
        · exact ihM _ _ _ _ _ _ h
    -- completeMember
    · intro env b res st x h
      simp only [completeMember] at h
      split at h
      · injection h with h
        subst h
        exact ⟨StInv.refl st, ResolveOk.of_same rfl _ _⟩
      · rename_i d o
        split at h
        · rename_i p hselp
          split at h
          · injection h with h
            subst h
            refine ⟨(StInv.addEv1Rec st _ (EvOk.settledEv d.path) _ _ _).trans
              (StInv.rejectOnly _ _), ?_⟩
            intro sig hs
            exact Or.inl (promReject_resolved hs)
          · rename_i m
            split at h
            · exact absurd h (by simp)
            · rename_i rsub heqsub
              obtain ⟨hs1, hr1⟩ := ihB _ _ _ _ _ _ heqsub
              split at h
              · injection h with h
                subst h
                refine ⟨(StInv.addEv1Rec st _ (EvOk.settledEv d.path) _ _ _).trans hs1, ?_⟩
                intro sig hs
                rcases hr1 sig hs with hpre | hf
                · exact Or.inl hpre
                · exact absurd hf.1 (by simp)
              · injection h with h
                subst h
                refine ⟨((StInv.addEv1Rec st _ (EvOk.settledEv d.path) _ _ _).trans hs1).trans
                  (StInv.rejectOnly _ _), ?_⟩
                intro sig hs
                rcases hr1 sig (promReject_resolved hs) with hpre | hf
                · exact Or.inl hpre
                · exact absurd hf.1 (by simp)
              · injection h with h
                subst h
                refine ⟨((StInv.addEv1Rec st _ (EvOk.settledEv d.path) _ _ _).trans hs1).trans
                  (StInv.rejectOnly _ _), ?_⟩
                intro sig hs
                rcases hr1 sig (promReject_resolved hs) with hpre | hf
                · exact Or.inl hpre
                · exact absurd hf.1 (by simp)
              · injection h with h
                subst h
                refine ⟨(StInv.addEv1Rec st _ (EvOk.settledEv d.path) _ _ _).trans hs1, ?_⟩
                intro sig hs
                rcases hr1 sig hs with hpre | hf
                · exact Or.inl hpre
                · exact absurd hf.1 (by simp)
        · injection h with h
          subst h
          exact ⟨StInv.addEv1Rec st _ (EvOk.settledEv d.path) _ _ _, ResolveOk.of_same rfl _ _⟩

theorem runBranch_stinv {fuel : Nat} {env : Env} {branches : Option (List BTree)} {idx : Nat}
    {isRoot : Bool} {st : St} {r : RB} (h : runBranch fuel env branches idx isRoot st = some r) :
    StInv st r.st := ((masterAll fuel).1 _ _ _ _ _ _ h).1

theorem runMembers_stinv {fuel : Nat} {env : Env} {order : List Nat} {inits : List MemberInit}
    {members : List BTree} {st : St} {x : St × List BTree × Bool}
    (h : runMembers fuel env order inits members st = some x) : StInv st x.1 :=
  ((masterAll fuel).2.2.2.1 _ _ _ _ _ _ h).1

theorem completeMember_stinv {fuel : Nat} {env : Env} {b : BTree} {res : OutRes} {st : St}
    {x : St × BTree × Bool} (h : completeMember fuel env b res st = some x) : StInv st x.1 :=
  ((masterAll fuel).2.2.2.2 _ _ _ _ _ h).1

/-- A purely synchronous plain branch (a sync node with no registered
outputs) whose step completes without throwing and selects no output
path: yields the node's structural path and the payload the step merged
(`undefined` when `output` is never called). -/
def plainStep (env : Env) : BTree → Option (List PKey × JSVal)
  | .node d none =>
    match env d.actionIndex with
    | none => none
    | some beh =>
      match beh.act with
      | .throws => none
      | .ret none => some (d.path, .undef)
      | .ret (some c) =>
        match callOutput [] beh.defaultOutput c with
        | .error _ => none
        | .ok rr => if pathTruthy rr.path then none else some (d.path, rr.args)
  | _ => none

/-- The expected trace and final argument bag of a run of plain
synchronous steps: each step is invoked with the bag as merged by all
previous steps, completes immediately, and merges its payload. -/
def plainSpec : List (List PKey × JSVal) → List (String × JSVal) → List Ev × List (String × JSVal)
  | [], args => ([], args)
  | (p, v) :: rest, args =>
    let r := plainSpec rest (merge args v)
    (Ev.invoked p false (createActionArgs args false) :: Ev.settled p :: r.1, r.2)

/-- Running a suffix of plain synchronous steps produces exactly the
per-step invocation/completion events in declaration order, with each
invocation observing the bag as left by its predecessors, and returns
normally. -/
theorem plain_run : ∀ (fuel : Nat) (env : Env) (seq : List BTree) (idx : Nat) (isRoot : Bool)
    (st : St) (l : List (List PKey × JSVal)) (r : RB),
    (seq.drop idx).mapM (plainStep env) = some l →
    runBranch fuel env (some seq) idx isRoot st = some r →
    r.st.trace = st.trace ++ (plainSpec l st.args).1 ∧
    r.st.args = (plainSpec l st.args).2 ∧
    r.ret = .finished false := by
  intro fuel
  induction fuel using Nat.strong_induction_on with
  | _ fuel ih =>
    intro env seq idx isRoot st l r hsteps hrun
    match fuel, hrun with
    | 0, hrun => simp [runBranch] at hrun
    | n + 1, hrun =>
      simp only [runBranch] at hrun
      cases hdrop : seq.drop idx with
      | nil =>
        rw [get?_of_drop_nil hdrop] at hrun
        rw [hdrop] at hsteps
        simp only [List.mapM_nil, pure, Option.some.injEq] at hsteps
        subst hsteps
        split at hrun
        · split at hrun
          · injection hrun with hrun
            subst hrun
            exact ⟨by simp [plainSpec], by simp [plainSpec], rfl⟩
          · injection hrun with hrun
            subst hrun
            exact ⟨by simp [plainSpec], by simp [plainSpec], rfl⟩
        · rename_i ms heq
          exact absurd heq (by simp)
        · rename_i d o heq
          exact absurd heq (by simp)
      | cons b tl =>
        rw [get?_of_drop_cons hdrop] at hrun
        rw [hdrop] at hsteps
        simp only [List.mapM_cons] at hsteps
        cases hb : plainStep env b with
        | none => rw [hb] at hsteps; simp at hsteps
        | some pv =>
          rw [hb] at hsteps
          cases hrest : tl.mapM (plainStep env) with
          | none => rw [hrest] at hsteps; simp at hsteps
          | some l' =>
            rw [hrest] at hsteps
            simp only [Option.bind_eq_bind, Option.some_bind, pure, Option.some.injEq] at hsteps
            subst hsteps
            rcases pv with ⟨p, v⟩
            cases b with
            | group ms => simp [plainStep] at hb
            | node d o =>
              cases o with
              | some m => simp [plainStep] at hb
              | none =>
                match n, hrun with
                | 0, hrun => simp [runSyncBranch] at hrun
                | n2 + 1, hrun =>
                  simp only [runSyncBranch, outKeys] at hrun
                  split at hrun
                  · rename_i henv
                    simp [plainStep, henv] at hb
                  · rename_i beh henv
                    split at hrun
                    · rename_i hact
                      simp [plainStep, henv, hact] at hb
                    · rename_i c hact
                      split at hrun
                      · rename_i e hexc
                        cases c with
                        | none =>
                          have hexc2 : Except.ok (Option.none (α := OutRes)) =
                              Except.error e := hexc
                          exact Except.noConfusion hexc2
                        | some call =>
                          have hexc2 : Except.map some (callOutput [] beh.defaultOutput call) =
                              Except.error e := hexc
                          cases hcall : callOutput [] beh.defaultOutput call with
                          | ok rr =>
                            rw [hcall] at hexc2
                            exact Except.noConfusion hexc2
                          | error e' => simp [plainStep, henv, hact, hcall] at hb
                      · rename_i res hexc
                        have hkey : p = d.path ∧ resArgsOf res = v ∧
                            selPath (resPathOf res) = none := by
                          cases c with
                          | none =>
                            have hexc2 : Except.ok (Option.none (α := OutRes)) =
                                Except.ok res := hexc
                            simp only [Except.ok.injEq] at hexc2
                            subst hexc2
                            simp only [plainStep, henv, hact, Option.some.injEq,
                              Prod.mk.injEq] at hb
                            exact ⟨hb.1.symm, hb.2, rfl⟩
                          | some call =>
                            have hexc2 : Except.map some (callOutput [] beh.defaultOutput call) =
                                Except.ok res := hexc
                            cases hcall : callOutput [] beh.defaultOutput call with
                            | error e' =>
                              rw [hcall] at hexc2
                              exact Except.noConfusion hexc2
                            | ok rr =>
                              rw [hcall] at hexc2
                              have hexc3 : Except.ok (some rr) = Except.ok res := hexc2
                              simp only [Except.ok.injEq] at hexc3
                              subst hexc3
                              simp only [plainStep, henv, hact, hcall] at hb
                              cases hpt : pathTruthy rr.path with
                              | true => rw [hpt] at hb; simp at hb
                              | false =>
                                rw [hpt] at hb
                                simp only [Bool.false_eq_true, if_false,
                                  Option.some.injEq, Prod.mk.injEq] at hb
                                refine ⟨hb.1.symm, hb.2, ?_⟩
                                show selPath rr.path = none
                                cases hrp : rr.path with
                                | none => rfl
                                | some q =>
                                  rw [hrp] at hpt
                                  simp only [pathTruthy] at hpt
                                  simp [selPath, hpt]
                        obtain ⟨hp1, hp2, hsel⟩ := hkey
                        subst hp1
                        split at hrun
                        · rename_i q hselq
                          rw [hsel] at hselq
                          exact absurd hselq (by simp)
                        · split at hrun
                          · exact absurd hrun (by simp)
                          · rename_i r2 heqrest
                            obtain ⟨ht, ha, hr⟩ := ih n2 (by omega) env _ (idx + 1) isRoot _ l' r2
                              (by rw [drop_set_succ, drop_succ_of_drop_cons hdrop]; exact hrest)
                              heqrest
                            split at hrun
                            · rename_i e heqret
                              rw [hr] at heqret
                              exact absurd heqret (by simp)
                            · injection hrun with hrun
                              subst hrun
                              refine ⟨?_, ?_, hr⟩
                              · rw [ht, ← hp2]
                                cases res <;> simp [plainSpec, resArgsOf]
                              · rw [ha, ← hp2]
                                cases res <;> simp [plainSpec, resArgsOf]

/-- The annotated node produced by initiating a member: run-state fields
set, structure and path unchanged. -/
theorem initMember_node (env : Env) (st : St) (d : NData)
    (o : Option (List (String × List BTree))) :
    (initMember env st (.node d o)).1 =
      .node { d with isExecuting := true, args := JSVal.obj (merge [] (.obj st.args)) } o := by
  simp only [initMember]
  repeat (first | rfl | split)

/-- Every completion of a member records its settlement in the trace. -/
theorem completeMember_settled_mem {fuel : Nat} {env : Env} {d : NData}
    {o : Option (List (String × List BTree))} {res : OutRes} {st : St} {y : St × BTree × Bool}
    (h : completeMember fuel env (.node d o) res st = some y) :
    Ev.settled d.path ∈ y.1.trace := by
  match fuel, h with
  | 0, h => simp [completeMember] at h
  | n + 1, h =>
    simp only [completeMember] at h
    have hbase : Ev.settled d.path ∈ st.trace ++ [Ev.settled d.path] := by simp
    split at h
    · rename_i p hselq
      split at h
      · injection h with h
        subst h
        exact hbase
      · rename_i m
        split at h
        · exact absurd h (by simp)
        · rename_i r heq
          have hsub := (runBranch_stinv heq).1.subset hbase
          split at h <;> (injection h with h; subst h; exact hsub)
    · injection h with h
      subst h
      exact hbase

/-- Completing a member whose result selects no truthy output path:
push the record, merge the payload, annotate the node, no sub-tree. -/
theorem completeMember_falsy (n : Nat) (env : Env) (d : NData)
    (o : Option (List (String × List BTree))) (res : OutRes) (st : St)
    (hpt : pathTruthy res.path = false) :
    completeMember (n + 1) env (.node d o) res st =
      some (⟨merge st.args res.args, st.records ++ [Rec.mk d.path res.path res.args], st.prom,
        st.trace ++ [Ev.settled d.path], st.sch, st.start, st.endTime⟩,
        .node { d with hasExecuted := true, isExecuting := false, output := res.args } o,
        true) := by
  simp only [completeMember]
  split
  · rename_i p hselq
    exfalso
    cases hrp : res.path with
    | none => rw [hrp] at hselq; simp [selPath] at hselq
    | some q =>
      rw [hrp] at hpt hselq
      simp only [pathTruthy] at hpt
      simp [selPath, hpt] at hselq
  · rfl

/-- The payload a member's settlement merges, read off its initiation
outcome. -/
def initPayload (inits : List MemberInit) (i : Nat) : JSVal :=
  match inits.get? i with
  | some (.willSettle res) => res.args
  | _ => JSVal.undef -- never-settling or absent member

/-- Every member listed in the processing order with a settling
initiation outcome has its settlement event in the final trace. -/
theorem runMembers_settled : ∀ (fuel : Nat) (env : Env) (order : List Nat)
    (inits : List MemberInit) (members : List BTree) (st : St) (x : St × List BTree × Bool),
    runMembers fuel env order inits members st = some x →
    ∀ i ∈ order, ∀ (res : OutRes) (d : NData) (o : Option (List (String × List BTree))),
      inits.get? i = some (.willSettle res) → members.get? i = some (.node d o) →
      Ev.settled d.path ∈ x.1.trace := by
  intro fuel
  induction fuel with
  | zero =>
    intro env order inits members st x h
    simp [runMembers] at h
  | succ n ih =>
    intro env order inits members st x h i hin res d o hi hm
    simp only [runMembers] at h
    cases order with
    | nil => simp at hin
    | cons j rest =>
      split at h
      · rename_i heqnil
        exact absurd heqnil (by simp)
      · rename_i j' rest' heqcons
        injection heqcons with hj hrest
        subst hj
        subst hrest
        split at h
        · rename_i res' m' hij hmj
          split at h
          · exact absurd h (by simp)
          · rename_i st' m'' ok heqc
            split at h
            · exact absurd h (by simp)
            · rename_i y2 heqm
              injection h with h
              subst h
              by_cases hij2 : i = j
              · subst hij2
                rw [hi] at hij
                rw [hm] at hmj
                simp only [Option.some.injEq, MemberInit.willSettle.injEq] at hij hmj
                subst hij
                subst hmj
                have hsm := completeMember_settled_mem heqc
                exact (runMembers_stinv heqm).1.subset hsm
              · have hin' : i ∈ rest := by
                  rcases List.mem_cons.mp hin with rfl | h'
                  · exact absurd rfl hij2
                  · exact h'
                refine ih env rest inits (members.set j m'') st' _ heqm i hin' res d o hi ?_
                rw [List.get?_set_ne _ _ (fun hh => hij2 hh.symm)]
                exact hm
        · rename_i hno
          rcases List.mem_cons.mp hin with rfl | hin'
          · exact (hno res (BTree.node d o) hi hm).elim
          · exact ih env rest inits members st x h i hin' res d o hi hm

/-- When every ordered member settles without selecting a truthy output
path, the argument bag after the group's completions is the fold of the
members' payload merges in completion order. -/
theorem runMembers_args_fold : ∀ (fuel : Nat) (env : Env) (order : List Nat)
    (inits : List MemberInit) (members : List BTree) (st : St) (x : St × List BTree × Bool),
    runMembers fuel env order inits members st = some x →
    (∀ i ∈ order, ∃ res d o, inits.get? i = some (.willSettle res) ∧
      pathTruthy res.path = false ∧ members.get? i = some (.node d o)) →
    x.1.args = order.foldl (fun a i => merge a (initPayload inits i)) st.args := by
  intro fuel
  induction fuel with
  | zero =>
    intro env order inits members st x h
    simp [runMembers] at h
  | succ n ih =>
    intro env order inits members st x h hyp
    simp only [runMembers] at h
    cases order with
    | nil =>
      split at h
      · injection h with h
        subst h
        rfl
      · rename_i heqcons
        exact absurd heqcons (by simp)
    | cons j rest =>
      split at h
      · rename_i heqnil
        exact absurd heqnil (by simp)
      · rename_i j' rest' heqcons
        injection heqcons with hj hrest
        subst hj
        subst hrest
        obtain ⟨res, d, o, hij, hpt, hmj⟩ := hyp j (by simp)
        split at h
        · rename_i res' m' hij' hmj'
          rw [hij] at hij'
          rw [hmj] at hmj'
          simp only [Option.some.injEq, MemberInit.willSettle.injEq] at hij' hmj'
          subst hij'
          subst hmj'
          split at h
          · exact absurd h (by simp)
          · rename_i st' m'' ok heqc
            match n, heqc with
            | 0, heqc => simp [completeMember] at heqc
            | n2 + 1, heqc =>
              rw [completeMember_falsy n2 env d o res st hpt] at heqc
              simp only [Option.some.injEq, Prod.mk.injEq] at heqc
              obtain ⟨hst', hm'', hok⟩ := heqc
              subst hst'
              subst hm''
              split at h
              · exact absurd h (by simp)
              · rename_i y2 heqm
                injection h with h
                subst h
                have hlen : j < members.length := by
                  rcases List.get?_eq_some.mp hmj with ⟨hl, -⟩
                  exact hl
                have hx := ih env rest inits _ _ _ heqm (by
                  intro i hi2
                  obtain ⟨res2, d2, o2, h1, h2, h3⟩ := hyp i (List.mem_cons_of_mem _ hi2)
                  by_cases hij3 : i = j
                  · subst hij3
                    have hset := List.get?_set_eq (BTree.node { d with hasExecuted := true, isExecuting := false, output := res.args } o) i members
                    rw [h3] at hset
                    refine ⟨res2, { d with hasExecuted := true, isExecuting := false, output := res.args }, o, h1, h2, ?_⟩
                    simpa using hset
                  · refine ⟨res2, d2, o2, h1, h2, ?_⟩
                    rw [List.get?_set_ne _ _ (fun hh => hij3 hh.symm)]
                    exact h3)
                rw [hx]
                simp only [List.foldl_cons]
                have hpay : initPayload inits j = res.args := by
                  unfold initPayload
                  rw [hij]
                rw [hpay]
        · rename_i hno
          exact (hno res (BTree.node d o) hij hmj).elim

/-! ### Concrete fixtures used by witnesses and counterexamples -/

/-- Build a compiled branch node. -/
def mkNode (ai : Nat) (p : List PKey) (async : Bool)
    (o : Option (List (String × List BTree)) := none) : BTree :=
  .node { name := "", actionIndex := ai, isAsync := async, path := p } o

/-- A registry in which every action returns without calling `output`. -/
def quietEnv : Env := fun _ => some ⟨none, .ret none⟩

/-- One plain synchronous step. -/
def oneStepTree : List BTree := [mkNode 0 [.idx 0] false]

/-! ### C7 — the output callback's result shape -/

/-- C7 (amended): `createNextFunction` maps a no-argument call to the
default output with `undefined` payload, a single non-string value to
the default output with that payload, a single nonempty string to that
named output with `undefined` payload, and a nonempty `(name, payload)`
pair to that named output with that payload; each declared output name
is invocable as a bound shortcut equivalent to `output(name, payload)`.
(The nonemptiness provisos are forced by the counterexample: the empty
string is falsy in the source's truthiness tests.) -/
theorem c7_output_result_shape (d : Option String) :
    (nextResult d .undef .undef = ⟨d, .undef⟩) ∧
    (∀ v : JSVal, (∀ s, v ≠ .str s) → nextResult d v .undef = ⟨d, v⟩) ∧
    (∀ s : String, s ≠ "" → nextResult d (.str s) .undef = ⟨some s, .undef⟩) ∧
    (∀ (s : String) (pl : JSVal), s ≠ "" → nextResult d (.str s) pl = ⟨some s, pl⟩) ∧
    (∀ (declared : List String) (name : String) (pl : JSVal), name ∈ declared →
      callOutput declared d (.shortcut name pl) = .ok (nextResult d (.str name) pl)) := by
  refine ⟨rfl, ?_, ?_, ?_, ?_⟩
  · intro v hv
    cases v with
    | str s => exact absurd rfl (hv s)
    | _ => rfl
  · intro s hs
    simp [nextResult, bne_iff_ne, hs]
  · intro s pl hs
    simp [nextResult, bne_iff_ne, hs]
  · intro declared name pl hmem
    simp [callOutput, hmem]

/-- C7 witness: the concrete instances of each clause. -/
theorem c7_output_result_shape_witness :
    (nextResult none .undef .undef = ⟨none, .undef⟩) ∧
    (nextResult none (.num 5) .undef = ⟨none, .num 5⟩) ∧
    (nextResult none (.str "go") .undef = ⟨some "go", .undef⟩) ∧
    (nextResult none (.str "go") (.num 1) = ⟨some "go", .num 1⟩) ∧
    (callOutput ["go"] none (.shortcut "go" (.num 1)) = .ok (nextResult none (.str "go") (.num 1))) := by
  obtain ⟨h1, h2, h3, h4, h5⟩ := c7_output_result_shape none
  exact ⟨h1, h2 (.num 5) (fun s => by simp), h3 "go" (by simp), h4 "go" (.num 1) (by simp),
    h5 ["go"] "go" (.num 1) (by simp)⟩

/-- C7 counterexample: calling `output('')` (a single string argument)
does not select the named output `''`; the empty string is falsy, so
the result is the default output with `''` as the payload, refuting the
claim's unrestricted single-string clause. -/
theorem c7_empty_string_counterexample :
    nextResult none (.str "") .undef = ⟨none, .str ""⟩ ∧
    nextResult none (.str "") .undef ≠ ⟨some "", .undef⟩ := by
  constructor
  · rfl
  · intro h
    have h2 : (none : Option String) = some "" := congrArg OutRes.path h
    exact Option.noConfusion h2

/-! ### C8 — dispatch capability iff synchronous -/

/-- C8: in every run, every step invocation's context carries the store
read accessor, and carries the dispatch capability exactly when the
branch ran synchronously (`isAsync` of the invocation is `false`). -/
theorem c8_dispatch_iff_sync (fuel : Nat) (env : Env) (tree : List BTree)
    (args : List (String × JSVal)) (recs : List Rec) (sch : List (List Nat)) (s e : Int)
    (r : RunResult) (h : runSignal fuel env tree args recs sch s e = some r)
    (p : List PKey) (a : Bool) (c : Ctx) (hmem : Ev.invoked p a c ∈ r.trace) :
    c.getState = true ∧ c.dispatch = !a := by
  simp only [runSignal] at h
  split at h
  · exact absurd h (by simp)
  · rename_i rb heq
    injection h with h
    subst h
    have hinv := (runBranch_stinv heq).2.2.1 _ hmem
    rcases hinv with hpre | hok
    · simp at hpre
    · obtain ⟨hg, hd⟩ := hok
      cases a with
      | false => exact ⟨hg, by rw [hd]; rfl⟩
      | true => exact ⟨hg, by rw [hd]; rfl⟩

/-- C8 witness: a concrete run with one synchronous invocation. -/
theorem c8_dispatch_iff_sync_witness :
    ∃ r, runSignal 10 quietEnv oneStepTree [] [] [] 0 0 = some r ∧
      Ev.invoked [PKey.idx 0] false ⟨[], true, true⟩ ∈ r.trace ∧
      (⟨[], true, true⟩ : Ctx).getState = true ∧
      (⟨[], true, true⟩ : Ctx).dispatch = !false := by
  have hsome : (runSignal 10 quietEnv oneStepTree [] [] [] 0 0).isSome = true := rfl
  have heq := (Option.some_get hsome).symm
  have hmem : Ev.invoked [PKey.idx 0] false ⟨[], true, true⟩ ∈
      ((runSignal 10 quietEnv oneStepTree [] [] [] 0 0).get hsome).trace := List.Mem.head _
  obtain ⟨h1, h2⟩ := c8_dispatch_iff_sync 10 quietEnv oneStepTree [] [] [] 0 0 _ heq
    [PKey.idx 0] false ⟨[], true, true⟩ hmem
  exact ⟨_, heq, hmem, h1, h2⟩

/-! ### C1 — synchronous sequencing -/

/-- C1: (i) running a sequence of plain synchronous steps produces
exactly one invocation event followed by one completion event per step,
in declaration order, where each invocation's context exposes the
argument bag as merged by all earlier steps (`plainSpec` spells this
out), and the final bag is the left fold of the payload merges; (ii) a
synchronous step that selects a registered output sub-tree has the
whole sub-tree run settle first — every event of the rest of the parent
sequence appears only after the full trace of the sub-tree's run. -/
theorem c1_sync_sequencing :
    (∀ (fuel : Nat) (env : Env) (seq : List BTree) (isRoot : Bool) (st : St)
      (l : List (List PKey × JSVal)) (r : RB),
      seq.mapM (plainStep env) = some l →
      runBranch fuel env (some seq) 0 isRoot st = some r →
      r.st.trace = st.trace ++ (plainSpec l st.args).1 ∧
      r.st.args = (plainSpec l st.args).2 ∧ r.ret = .finished false) ∧
    (∀ (n : Nat) (env : Env) (seq : List BTree) (idx : Nat) (d : NData)
      (m : List (String × List BTree)) (beh : StepBeh) (call : OCall) (res : OutRes)
      (p : String) (lst : List BTree) (isRoot : Bool) (st : St) (rsub : RB) (r : RB),
      env d.actionIndex = some beh →
      beh.act = .ret (some call) →
      callOutput (outKeys (some m)) beh.defaultOutput call = .ok res →
      res.path = some p → p ≠ "" →
      lookupOut m p = some lst →
      runBranch n env (some lst) 0 false
        ⟨merge st.args res.args, st.records, st.prom,
          (st.trace ++ [Ev.invoked d.path false (createActionArgs st.args false)]) ++
            [Ev.settled d.path], st.sch, st.start, st.endTime⟩ = some rsub →
      rsub.ret = .finished false →
      runSyncBranch (n + 1) env seq idx d (some m) isRoot st = some r →
      ∃ drest, r.st.trace = rsub.st.trace ++ drest) := by
  constructor
  · intro fuel env seq isRoot st l r hsteps hrun
    exact plain_run fuel env seq 0 isRoot st l r (by rwa [List.drop_zero]) hrun
  · intro n env seq idx d m beh call res p lst isRoot st rsub r
    intro henv hact hcall hp hpne hlk hsub hret hr
    simp only [runSyncBranch, outKeys] at hr
    split at hr
    · rename_i henv2
      rw [henv] at henv2
      exact Option.noConfusion henv2
    · rename_i beh' henv2
      rw [henv] at henv2
      injection henv2 with henv2
      subst henv2
      split at hr
      · rename_i hact2
        rw [hact] at hact2
        exact StepAct.noConfusion hact2
      · rename_i c hact2
        rw [hact] at hact2
        injection hact2 with hact2
        subst hact2
        split at hr
        · rename_i e hexc
          have hexc2 : Except.map some (callOutput (outKeys (some m)) beh.defaultOutput call) =
              Except.error e := hexc
          rw [hcall] at hexc2
          exact Except.noConfusion hexc2
        · rename_i res' hexc
          have hexc2 : Except.map some (callOutput (outKeys (some m)) beh.defaultOutput call) =
              Except.ok res' := hexc
          rw [hcall] at hexc2
          have hexc3 : Except.ok (some res) = Except.ok res' := hexc2
          injection hexc3 with hexc3
          subst hexc3
          split at hr
          · rename_i p' hsel
            have hsel2 : (match res.path with
                | some q => if q != "" then some q else none
                | none => (none : Option String)) = some p' := hsel
            rw [hp] at hsel2
            have hsel3 : (if (p != "") = true then some p else none) = some p' := hsel2
            rw [if_pos (by simpa [bne_iff_ne] using hpne)] at hsel3
            injection hsel3 with hsel3
            subst hsel3
            split at hr
            · rename_i heqnone
              have heq2 : runBranch n env (some lst) 0 false
                  ⟨merge st.args res.args, st.records, st.prom,
                    (st.trace ++ [Ev.invoked d.path false (createActionArgs st.args false)]) ++
                      [Ev.settled d.path], st.sch, st.start, st.endTime⟩ = none := by
                rw [hlk] at heqnone
                exact heqnone
              exact Option.noConfusion (hsub.symm.trans heq2)
            · rename_i rsub' heqsub2
              have heq2 : runBranch n env (some lst) 0 false
                  ⟨merge st.args res.args, st.records, st.prom,
                    (st.trace ++ [Ev.invoked d.path false (createActionArgs st.args false)]) ++
                      [Ev.settled d.path], st.sch, st.start, st.endTime⟩ = some rsub' := by
                rw [hlk] at heqsub2
                exact heqsub2
              have hrr := hsub.symm.trans heq2
              injection hrr with hrr
              subst hrr
              split at hr
              · rename_i e heqret
                rw [hret] at heqret
                exact SeqRet.noConfusion heqret
              · rename_i heqret
                rw [hret] at heqret
                injection heqret with heqret
                exact absurd heqret.symm (by simp)
              · split at hr
                · exact absurd hr (by simp)
                · rename_i r2 heqrest
                  split at hr
                  · injection hr with hr
                    subst hr
                    obtain ⟨t, ht⟩ := (runBranch_stinv heqrest).1
                    exact ⟨t, ht.symm⟩
                  · injection hr with hr
                    subst hr
                    obtain ⟨t, ht⟩ := (runBranch_stinv heqrest).1
                    exact ⟨t, ht.symm⟩
              · rename_i e heqret
                rw [hret] at heqret
                exact SeqRet.noConfusion heqret
              · rename_i heqret
                rw [hret] at heqret
                exact SeqRet.noConfusion heqret
          · rename_i hsel
            have hsel2 : (match res.path with
                | some q => if q != "" then some q else none
                | none => (none : Option String)) = none := hsel
            rw [hp] at hsel2
            have hsel3 : (if (p != "") = true then some p else none) = none := hsel2
            rw [if_pos (by simpa [bne_iff_ne] using hpne)] at hsel3
            exact Option.noConfusion hsel3

/-- Two plain synchronous steps that output payload objects. -/
def thTree : List BTree := [mkNode 0 [.idx 0] false, mkNode 1 [.idx 1] false]

def thEnv : Env := fun i =>
  match i with
  | 0 => some ⟨none, .ret (some (.raw (.obj [("b", .num 2)]) .undef))⟩
  | 1 => some ⟨none, .ret (some (.raw (.obj [("c", .num 3)]) .undef))⟩
  | _ => none

def thSt : St := ⟨[("a", .num 1)], [], .unsettled, [], [], 0, 0⟩

def thSteps : List (List PKey × JSVal) :=
  [([PKey.idx 0], .obj [("b", .num 2)]), ([PKey.idx 1], .obj [("c", .num 3)])]

/-- A synchronous step with a registered `success` sub-tree. -/
def c1bD : NData := { name := "", actionIndex := 0, isAsync := false, path := [PKey.idx 0] }

def c1bLst : List BTree :=
  [mkNode 1 [PKey.idx 0, PKey.key "outputs", PKey.key "success", PKey.idx 0] false]

def c1bM : List (String × List BTree) := [("success", c1bLst)]

def c1bEnv : Env := fun i =>
  match i with
  | 0 => some ⟨none, .ret (some (.shortcut "success" .undef))⟩
  | _ => some ⟨none, .ret none⟩

def c1bSt : St := ⟨[], [], .unsettled, [], [], 0, 0⟩

def c1bSub : St :=
  ⟨merge c1bSt.args JSVal.undef, c1bSt.records, c1bSt.prom,
    (c1bSt.trace ++ [Ev.invoked c1bD.path false (createActionArgs c1bSt.args false)]) ++
      [Ev.settled c1bD.path], c1bSt.sch, c1bSt.start, c1bSt.endTime⟩

/-- C1 witness: both clauses at concrete runs. -/
theorem c1_sync_sequencing_witness :
    (∃ r, runBranch 10 thEnv (some thTree) 0 true thSt = some r ∧
      r.st.trace = thSt.trace ++ (plainSpec thSteps thSt.args).1 ∧
      r.st.args = (plainSpec thSteps thSt.args).2 ∧ r.ret = .finished false) ∧
    (∃ rsub r drest, runBranch 10 c1bEnv (some c1bLst) 0 false c1bSub = some rsub ∧
      runSyncBranch 11 c1bEnv [BTree.node c1bD (some c1bM)] 0 c1bD (some c1bM) true c1bSt =
        some r ∧
      r.st.trace = rsub.st.trace ++ drest) := by
  constructor
  · have hsome : (runBranch 10 thEnv (some thTree) 0 true thSt).isSome = true := rfl
    have heq := (Option.some_get hsome).symm
    obtain ⟨h1, h2, h3⟩ := c1_sync_sequencing.1 10 thEnv thTree true thSt thSteps _ rfl heq
    exact ⟨_, heq, h1, h2, h3⟩
  · have hsome1 : (runBranch 10 c1bEnv (some c1bLst) 0 false c1bSub).isSome = true := rfl
    have hsub := (Option.some_get hsome1).symm
    have hret : ((runBranch 10 c1bEnv (some c1bLst) 0 false c1bSub).get hsome1).ret =
        .finished false := rfl
    have hsome2 : (runSyncBranch 11 c1bEnv [BTree.node c1bD (some c1bM)] 0 c1bD (some c1bM)
        true c1bSt).isSome = true := rfl
    have hr := (Option.some_get hsome2).symm
    obtain ⟨drest, hd⟩ := c1_sync_sequencing.2 10 c1bEnv [BTree.node c1bD (some c1bM)] 0 c1bD
      c1bM ⟨none, .ret (some (.shortcut "success" .undef))⟩ (.shortcut "success" .undef)
      ⟨some "success", .undef⟩ "success" c1bLst true c1bSt _ _ rfl rfl rfl rfl (by simp) rfl
      hsub hret hr
    exact ⟨_, _, drest, hsub, hr, hd⟩

/-- Running into an `undefined` sub-tree throws immediately on reading
`tree.branches[index]`. -/
theorem runBranch_none (fuel : Nat) (env : Env) (idx : Nat) (isRoot : Bool) (st : St) :
    runBranch (fuel + 1) env none idx isRoot st =
      some ⟨st, [], .thrownS (.typeError ("Cannot read branches of undefined"))⟩ := rfl

/-! ### C5 — unregistered output path -/

/-- C5 (amended): a synchronous step that selects a nonempty output
path with no sub-tree registered under it does not continue silently:
reading `outputs[path]` yields `undefined`, the recursive `runBranch`
throws inside the try, and the catch rejects the run promise; the
branch sequence stops. -/
theorem c5_unregistered_output (n : Nat) (env : Env) (seq : List BTree) (idx : Nat)
    (d : NData) (m : List (String × List BTree)) (beh : StepBeh) (call : OCall)
    (res : OutRes) (p : String) (isRoot : Bool) (st : St) (r : RB)
    (hget : seq.get? idx = some (.node d (some m)))
    (henv : env d.actionIndex = some beh)
    (hact : beh.act = .ret (some call))
    (hcall : callOutput (outKeys (some m)) beh.defaultOutput call = .ok res)
    (hp : res.path = some p)
    (hpe : (p != "") = true)
    (hlk : lookupOut m p = none)
    (hprom : st.prom = .unsettled)
    (h : runBranch (n + 3) env (some seq) idx isRoot st = some r) :
    r.st.prom = .rejectedWith (.typeError ("Cannot read branches of undefined")) ∧
    r.st.trace = st.trace ++ [Ev.invoked d.path false (createActionArgs st.args false),
      Ev.settled d.path] ∧
    r.ret = .finished false := by
  have hexc : syncCallResult (some call) (outKeys (some m)) beh.defaultOutput =
      Except.ok (some res) := by
    have h0 : syncCallResult (some call) (outKeys (some m)) beh.defaultOutput =
        (callOutput (outKeys (some m)) beh.defaultOutput call).map some := rfl
    rw [h0, hcall]
    rfl
  have hsel : selPath (resPathOf (some res)) = some p := by
    simp [selPath, resPathOf, hp, hpe]
  simp only [runBranch] at h
  rw [hget] at h
  simp only [runSyncBranch, henv, hact, hexc, hsel, hlk, runBranch_none] at h
  injection h with h
  subst h
  refine ⟨?_, by simp, rfl⟩
  show promReject _ _ = _
  show promReject st.prom _ = _
  rw [hprom]
  rfl

def c5Env : Env := fun i =>
  match i with
  | 0 => some ⟨none, .ret (some (.raw (.str "s") .undef))⟩
  | _ => some ⟨none, .ret none⟩

def c5Tree : List BTree :=
  [mkNode 0 [.idx 0] false (some []), mkNode 1 [.idx 1] false]

/-- C5 counterexample: a synchronous step selects output `"s"` with no
registered sub-tree; the run promise is rejected with the resulting
`TypeError` and the following sibling branch is never executed — the
trace is exactly the failing step's two events. -/
theorem c5_counterexample :
    ∃ r, runSignal 6 c5Env c5Tree [] [] [] 0 0 = some r ∧
      r.prom = .rejectedWith (.typeError ("Cannot read branches of undefined")) ∧
      r.trace = [Ev.invoked [PKey.idx 0] false ⟨[], true, true⟩, Ev.settled [PKey.idx 0]] := by
  have hsome : (ansRB (runEval 6 c5Env (.branch (some c5Tree) 0 true
      ⟨[], [], checkArgs [] .unsettled, [], [], 0, 0⟩))).isSome = true := rfl
  have heq := (Option.some_get hsome).symm
  have hsig := runSignal_eval 6 c5Env c5Tree [] [] [] 0 0 _ false heq rfl
  exact ⟨_, hsig, rfl, rfl⟩

/-- C5 amended-theorem witness: the counterexample fixture, through the
general theorem at its concrete input. -/
theorem c5_unregistered_witness :
    ∃ r, runBranch 6 c5Env (some c5Tree) 0 true ⟨[], [], .unsettled, [], [], 0, 0⟩ = some r ∧
      r.st.prom = .rejectedWith (.typeError ("Cannot read branches of undefined")) ∧
      r.st.trace = [Ev.invoked [PKey.idx 0] false ⟨[], true, true⟩, Ev.settled [PKey.idx 0]] ∧
      r.ret = .finished false := by
  have hsome : (ansRB (runEval 6 c5Env (.branch (some c5Tree) 0 true
      ⟨[], [], .unsettled, [], [], 0, 0⟩))).isSome = true := rfl
  have heq := (Option.some_get hsome).symm
  have hrb := runBranch_evalE _ _ _ _ _ _ _ heq
  obtain ⟨h1, h2, h3⟩ := c5_unregistered_output 3 c5Env c5Tree 0
    { name := "", actionIndex := 0, isAsync := false, path := [PKey.idx 0] } [] ⟨none, .ret (some (.raw (.str "s") .undef))⟩
    (.raw (.str "s") .undef) ⟨some "s", .undef⟩ "s" true ⟨[], [], .unsettled, [], [], 0, 0⟩ _
    rfl rfl rfl rfl rfl rfl rfl rfl hrb
  exact ⟨_, hrb, h1, by simpa using h2, h3⟩

/-! ### C3 — failure semantics -/

def c3Env : Env := fun i =>
  match i with
  | 0 => some ⟨none, .ret (some (.shortcut "success" .undef))⟩
  | 1 => some ⟨none, .throws⟩
  | _ => some ⟨none, .ret none⟩

/-- A registry for the counterexample run: action 0 (the group member)
selects output `"s"` through a raw `output('s')` call; action 1 (the
step inside the member's registered sub-tree) throws synchronously;
every other action returns without output. -/
def c3gEnv : Env := fun i =>
  match i with
  | 0 => some ⟨none, .ret (some (.raw (.str "s") .undef))⟩
  | 1 => some ⟨none, .throws⟩
  | _ => some ⟨none, .ret none⟩

/-- The sub-tree registered under the member's `"s"` output: one
synchronous user step that throws. -/
def c3gSub : List BTree :=
  [mkNode 1 [PKey.idx 0, PKey.idx 0, PKey.key "outputs", PKey.key "s", PKey.idx 0] false]

/-- An async group whose single member outputs into that throwing
sub-tree, followed by a sibling branch after the group. -/
def c3gTree : List BTree :=
  [.group [mkNode 0 [.idx 0, .idx 0] true (some [("s", c3gSub)])], mkNode 2 [.idx 1] false]

/-- C3 counterexample: a user step throws synchronously inside an
async-group member's registered output sub-tree (its invocation event
is in the trace), and the run promise is rejected with exactly that
step's error — but the member's `.catch` settles the chain
`Promise.all` waits on, so the join still advances to `index + 1` and
the branch after the failing group is executed: its invocation event is
also in the trace, refuting the claim's abort clause. -/
theorem c3_counterexample :
    ∃ r, runSignal 8 c3gEnv c3gTree [] [] [] 0 0 = some r ∧
      r.prom = .rejectedWith (.userErr 1) ∧
      Ev.invoked [PKey.idx 0, PKey.idx 0, PKey.key "outputs", PKey.key "s", PKey.idx 0]
        false ⟨[], true, true⟩ ∈ r.trace ∧
      Ev.invoked [PKey.idx 1] false ⟨[], true, true⟩ ∈ r.trace := by
  have hsome : (ansRB (runEval 8 c3gEnv (.branch (some c3gTree) 0 true
      ⟨[], [], checkArgs [] .unsettled, [], [], 0, 0⟩))).isSome = true := rfl
  have heq := (Option.some_get hsome).symm
  have hsig := runSignal_eval 8 c3gEnv c3gTree [] [] [] 0 0 _ true heq rfl
  refine ⟨_, hsig, rfl, ?_, ?_⟩
  · exact List.Mem.tail _ (List.Mem.tail _ (List.Mem.head _))
  · exact List.Mem.tail _ (List.Mem.tail _ (List.Mem.tail _ (List.Mem.head _)))

/-- C3 (amended): when a synchronous step throws, the run promise is
rejected with that step's error (first settlement wins), the step's own
branch sequence executes nothing further (the trace gains only the
failing invocation), and the call returns `undefined`, so an enclosing
branch's sequence continues — the counterexample shows a later sibling
of the enclosing sequence still running after the rejection. -/
theorem c3_throw_rejects_and_stops_sequence (n : Nat) (env : Env) (seq : List BTree)
    (idx : Nat) (d : NData) (o : Option (List (String × List BTree))) (beh : StepBeh)
    (isRoot : Bool) (st : St) (r : RB)
    (hget : seq.get? idx = some (.node d o))
    (henv : env d.actionIndex = some beh)
    (hact : beh.act = .throws)
    (hprom : st.prom = .unsettled)
    (h : runBranch (n + 1) env (some seq) idx isRoot st = some r) :
    r.st.prom = .rejectedWith (.userErr d.actionIndex) ∧
    r.st.trace = st.trace ++ [Ev.invoked d.path false (createActionArgs st.args false)] ∧
    r.ret = .finished false := by
  simp only [runBranch] at h
  rw [hget] at h
  match n, h with
  | 0, h => simp [runSyncBranch] at h
  | n2 + 1, h =>
    simp only [runSyncBranch] at h
    split at h
    · rename_i henv2
      rw [henv] at henv2
      exact Option.noConfusion henv2
    · rename_i beh' henv2
      rw [henv] at henv2
      injection henv2 with henv2
      subst henv2
      split at h
      · injection h with h
        subst h
        refine ⟨?_, rfl, rfl⟩
        show promReject st.prom (.userErr d.actionIndex) = _
        rw [hprom]
        rfl
      · rename_i c hact2
        rw [hact] at hact2
        exact StepAct.noConfusion hact2

/-- C3 amended-theorem witness: a single throwing step followed by a
sibling, at the top of a run. -/
theorem c3_throw_rejects_witness :
    ∃ r, runBranch 10 c3Env (some [mkNode 1 [.idx 0] false, mkNode 2 [.idx 1] false]) 0 true
        ⟨[], [], .unsettled, [], [], 0, 0⟩ = some r ∧
      r.st.prom = .rejectedWith (.userErr 1) ∧
      r.st.trace = [Ev.invoked [PKey.idx 0] false ⟨[], true, true⟩] ∧
      r.ret = .finished false := by
  have hsome : (runBranch 10 c3Env (some [mkNode 1 [.idx 0] false, mkNode 2 [.idx 1] false]) 0
      true ⟨[], [], .unsettled, [], [], 0, 0⟩).isSome = true := rfl
  have heq := (Option.some_get hsome).symm
  obtain ⟨h1, h2, h3⟩ := c3_throw_rejects_and_stops_sequence 9 c3Env
    [mkNode 1 [.idx 0] false, mkNode 2 [.idx 1] false] 0
    { name := "", actionIndex := 1, isAsync := false, path := [PKey.idx 0] } none
    ⟨none, .throws⟩ true ⟨[], [], .unsettled, [], [], 0, 0⟩ _ rfl rfl rfl rfl heq
  exact ⟨_, heq, h1, by simpa using h2, h3⟩

/-! ### C4 — serialization guard -/

/-- C4 counterexample: invoking a signal with a circular argument bag
rejects the promise with the serialization error, yet the step function
is still invoked during that run. -/
theorem c4_counterexample :
    ∃ r, runSignal 10 quietEnv oneStepTree [("x", JSVal.cyc)] [] [] 0 0 = some r ∧
      r.prom = .rejectedWith .serializationError ∧
      Ev.invoked [PKey.idx 0] false ⟨[("x", JSVal.cyc)], true, true⟩ ∈ r.trace := by
  have hsome : (runSignal 10 quietEnv oneStepTree [("x", JSVal.cyc)] [] [] 0 0).isSome =
      true := rfl
  have heq := (Option.some_get hsome).symm
  exact ⟨_, heq, rfl, List.Mem.head _⟩

/-- C4 (amended): with an unserializable argument bag the run promise
is rejected with the serialization error — but the engine still runs
the tree: for a sequence of plain synchronous steps, every step is
still invoked (the trace is exactly the full per-step event list). -/
theorem c4_serialization_rejects_but_runs (fuel : Nat) (env : Env) (tree : List BTree)
    (args : List (String × JSVal)) (recs : List Rec) (sch : List (List Nat)) (s e : Int)
    (r : RunResult) (l : List (List PKey × JSVal))
    (hser : stringifyOk (.obj args) = false)
    (h : runSignal fuel env tree args recs sch s e = some r) :
    r.prom = .rejectedWith .serializationError ∧
    (tree.mapM (plainStep env) = some l → r.trace = (plainSpec l args).1) := by
  simp only [runSignal] at h
  split at h
  · exact absurd h (by simp)
  · rename_i rb heq
    injection h with h
    subst h
    have hprom0 : checkArgs args .unsettled = .rejectedWith .serializationError := by
      simp [checkArgs, hser, promReject]
    have hne : (⟨args, recs, checkArgs args .unsettled, [], sch, s, e⟩ : St).prom ≠
        .unsettled := by
      show checkArgs args .unsettled ≠ .unsettled
      rw [hprom0]
      simp
    have hprom1 : rb.st.prom = .rejectedWith .serializationError :=
      ((runBranch_stinv heq).2.2.2 hne).trans hprom0
    constructor
    · show (match rb.ret with
        | .thrownS e2 => promReject rb.st.prom e2
        | _ => rb.st.prom) = _
      split
      · rw [hprom1]
        rfl
      · exact hprom1
    · intro hmap
      obtain ⟨ht, -, -⟩ := plain_run fuel env tree 0 true
        ⟨args, recs, checkArgs args .unsettled, [], sch, s, e⟩ l rb
        (by rwa [List.drop_zero]) heq
      simpa using ht

/-- C4 amended-theorem witness: one plain step, circular args. -/
theorem c4_serialization_witness :
    ∃ r, runSignal 10 quietEnv oneStepTree [("x", JSVal.cyc)] [] [] 0 0 = some r ∧
      r.prom = .rejectedWith .serializationError ∧
      r.trace = (plainSpec [([PKey.idx 0], JSVal.undef)] [("x", JSVal.cyc)]).1 := by
  have hsome : (runSignal 10 quietEnv oneStepTree [("x", JSVal.cyc)] [] [] 0 0).isSome =
      true := rfl
  have heq := (Option.some_get hsome).symm
  obtain ⟨h1, h2⟩ := c4_serialization_rejects_but_runs 10 quietEnv oneStepTree
    [("x", JSVal.cyc)] [] [] 0 0 _ [([PKey.idx 0], JSVal.undef)] rfl heq
  exact ⟨_, heq, h1, h2 rfl⟩

/-! ### C9 — the resolved signal and the duration field -/

/-- C9 (amended): a resolved run promise carries the final args bag,
the asyncActionResults list, the executed branch tree and
`isExecuting = false` — but its `duration` field is always the initial
`0`; the elapsed time is stamped on the last top-level branch node
instead. -/
theorem c9_resolution_shape (fuel : Nat) (env : Env) (tree : List BTree)
    (args : List (String × JSVal)) (recs : List Rec) (sch : List (List Nat))
    (s e : Int) (r : RunResult) (sig : Signal)
    (h : runSignal fuel env tree args recs sch s e = some r)
    (hres : r.prom = .resolvedWith sig) :
    sig.args = r.args ∧ sig.asyncActionResults = r.records ∧
    sig.isExecuting = false ∧ sig.duration = 0 ∧ sig.branches = r.branches := by
  simp only [runSignal] at h
  split at h
  · exact absurd h (by simp)
  · rename_i rb heq
    injection h with h
    subst h
    simp only [] at hres
    have hro : ResolveOk ⟨args, recs, checkArgs args .unsettled, [], sch, s, e⟩
        rb.st rb.branches true :=
      ((masterAll fuel).1 _ _ _ _ _ _ heq).2
    have hprom : rb.st.prom = .resolvedWith sig := by
      split at hres
      · exact promReject_resolved hres
      · exact hres
    rcases hro sig hprom with hpre | ⟨-, h1, h2, h3, h4, h5⟩
    · exfalso
      have hpre2 : checkArgs args .unsettled = .resolvedWith sig := hpre
      unfold checkArgs at hpre2
      split at hpre2
      · exact Prom.noConfusion hpre2
      · simp [promReject] at hpre2
    · exact ⟨h1, h2, h3, h4, h5⟩

/-- C9 counterexample: a completed run with start 0 and completion time
5 resolves with a signal whose `duration` is `0`, not the elapsed `5`;
the elapsed time is on the last top-level branch node's `duration`
field. -/
theorem c9_duration_counterexample :
    ∃ r, runSignal 4 quietEnv oneStepTree [] [] [] 0 5 = some r ∧
      ∃ sig, r.prom = .resolvedWith sig ∧ sig.duration = 0 ∧ sig.isExecuting = false ∧
        ∃ d o, r.branches.get? 0 = some (.node d o) ∧ d.duration = 5 := by
  have hsome : (ansRB (runEval 4 quietEnv (.branch (some oneStepTree) 0 true
      ⟨[], [], checkArgs [] .unsettled, [], [], 0, 5⟩))).isSome = true := rfl
  have heq := (Option.some_get hsome).symm
  have hsig := runSignal_eval 4 quietEnv oneStepTree [] [] [] 0 5 _ false heq rfl
  exact ⟨_, hsig, _, rfl, rfl, rfl, _, _, rfl, rfl⟩

/-- C9 amended-theorem witness: the one-step run above, through the
general resolution-shape theorem. -/
theorem c9_resolution_witness :
    ∃ r sig, runSignal 4 quietEnv oneStepTree [] [] [] 0 5 = some r ∧
      r.prom = .resolvedWith sig ∧
      sig.args = r.args ∧ sig.asyncActionResults = r.records ∧
      sig.isExecuting = false ∧ sig.duration = 0 ∧ sig.branches = r.branches := by
  have hsome : (ansRB (runEval 4 quietEnv (.branch (some oneStepTree) 0 true
      ⟨[], [], checkArgs [] .unsettled, [], [], 0, 5⟩))).isSome = true := rfl
  have heq := (Option.some_get hsome).symm
  have hsig := runSignal_eval 4 quietEnv oneStepTree [] [] [] 0 5 _ false heq rfl
  obtain ⟨h1, h2, h3, h4, h5⟩ := c9_resolution_shape 4 quietEnv oneStepTree [] [] [] 0 5 _ _
    hsig rfl
  exact ⟨_, _, hsig, rfl, h1, h2, h3, h4, h5⟩

/-! ### C2 — async group fan-out and fan-in -/

/-- C2: async fan-out/fan-in.  All members of a group are initiated in
source order (the trace gains the per-member initiation events in
source order); the settlement pass then runs under the oracle's
completion order and every settling member's settlement event is in the
post-join state, whatever that order; the parent sequence advances to
`index + 1` only after the join, starting exactly from the post-join
state (and never, when some member hangs); and when every ordered
member settles with a falsy path, the post-join args bag is the fold of
all members' payload merges. -/
theorem c2_async_fanout_fanin (n : Nat) (env : Env) (seq : List BTree) (idx : Nat)
    (ms ms1 : List BTree) (inits : List MemberInit) (evs : List Ev)
    (isRoot : Bool) (st : St) (r : RB)
    (hget : seq.get? idx = some (.group ms))
    (hinit : initMembers env st ms = (ms1, inits, evs, none))
    (h : runBranch (n + 2) env (some seq) idx isRoot st = some r) :
    evs = List.join (ms.map (fun b => (initMember env st b).2.1)) ∧
    ∃ stC ms2 anyHang,
      runMembers n env (completionOrder ms.length ((st.sch.head?).getD [])) inits ms1
        ⟨st.args, st.records, st.prom, st.trace ++ evs, st.sch.tail, st.start, st.endTime⟩ =
        some (stC, ms2, anyHang) ∧
      (∀ i res d o, inits.get? i = some (.willSettle res) → i < ms.length →
        ms1.get? i = some (.node d o) → Ev.settled d.path ∈ stC.trace) ∧
      ((anyHang || inits.any neverInit) = false →
        ∃ rrest, runBranch n env (some (seq.set idx (.group ms2))) (idx + 1) isRoot stC =
          some rrest ∧ r.st = rrest.st ∧ r.branches = rrest.branches) ∧
      ((anyHang || inits.any neverInit) = true →
        r = ⟨stC, seq.set idx (.group ms2), .hang⟩) ∧
      ((∀ i ∈ completionOrder ms.length ((st.sch.head?).getD []),
          ∃ res d o, inits.get? i = some (.willSettle res) ∧ pathTruthy res.path = false ∧
            ms1.get? i = some (.node d o)) →
        stC.args = (completionOrder ms.length ((st.sch.head?).getD [])).foldl
          (fun a i => merge a (initPayload inits i)) st.args) := by
  refine ⟨(initMembers_spec env st ms ms1 inits evs hinit).2.2.1, ?_⟩
  simp only [runBranch] at h
  rw [hget] at h
  simp only [runAsyncBranch, hinit] at h
  split at h
  · exact absurd h (by simp)
  · rename_i stC ms2 anyHang hmem
    refine ⟨stC, ms2, anyHang, hmem, ?_, ?_, ?_, ?_⟩
    · intro i res d o hi hlt hm
      exact runMembers_settled n env _ inits ms1 _ _ hmem i
        (completionOrder_mem _ hlt) res d o hi hm
    · intro hcond
      split at h
      · rename_i hhang
        rw [hcond] at hhang
        exact absurd hhang (by simp)
      · split at h
        · exact absurd h (by simp)
        · rename_i rr hrest
          injection h with h
          subst h
          exact ⟨rr, hrest, rfl, rfl⟩
    · intro hcond
      split at h
      · injection h with h
        subst h
        rfl
      · rename_i hhang
        rw [hcond] at hhang
        exact absurd rfl hhang
    · intro hall
      exact runMembers_args_fold n env _ inits ms1 _ _ hmem hall

def c2Env : Env := fun i =>
  match i with
  | 0 => some ⟨none, .ret (some (.raw (.obj [("a", .num 1)]) .undef))⟩
  | 1 => some ⟨none, .ret (some (.raw (.obj [("b", .num 2)]) .undef))⟩
  | _ => some ⟨none, .ret none⟩

def c2Members : List BTree :=
  [mkNode 0 [.idx 0, .idx 0] true none, mkNode 1 [.idx 0, .idx 2] true none]

def c2Tree : List BTree := [.group c2Members, mkNode 2 [.idx 1] false]

def c2St : St := ⟨[], [], .unsettled, [], [[1, 0]], 0, 0⟩

/-- C2 witness: two async members with different payloads complete in
reverse source order (oracle `[1, 0]`); both settlement events are in
the post-join state, both payloads are merged into the args bag by the
join, and the parent's continuation runs from exactly that state. -/
theorem c2_async_fanout_fanin_witness :
    ∃ r stC ms2 anyHang,
      runBranch 8 c2Env (some c2Tree) 0 true c2St = some r ∧
      runMembers 6 c2Env (completionOrder 2 [1, 0])
        (initMembers c2Env c2St c2Members).2.1 (initMembers c2Env c2St c2Members).1
        ⟨c2St.args, c2St.records, c2St.prom,
          c2St.trace ++ (initMembers c2Env c2St c2Members).2.2.1,
          c2St.sch.tail, c2St.start, c2St.endTime⟩ = some (stC, ms2, anyHang) ∧
      Ev.settled [PKey.idx 0, PKey.idx 0] ∈ stC.trace ∧
      Ev.settled [PKey.idx 0, PKey.idx 2] ∈ stC.trace ∧
      stC.args = [("b", .num 2), ("a", .num 1)] ∧
      (∃ rrest, runBranch 6 c2Env (some (c2Tree.set 0 (.group ms2))) 1 true stC =
        some rrest ∧ r.st = rrest.st) := by
  have hsome : (ansRB (runEval 8 c2Env (.branch (some c2Tree) 0 true c2St))).isSome =
      true := rfl
  have heq := (Option.some_get hsome).symm
  have hrb := runBranch_evalE _ _ _ _ _ _ _ heq
  obtain ⟨hevs, stC, ms2, anyHang, hmem, hsettled, hadv, hhang, hfold⟩ :=
    c2_async_fanout_fanin 6 c2Env c2Tree 0 c2Members _ _ _ true c2St _ rfl rfl hrb
  have hord : completionOrder 2 ((c2St.sch.head?).getD []) = completionOrder 2 [1, 0] := rfl
  refine ⟨_, stC, ms2, anyHang, hrb, hmem, ?_, ?_, ?_, ?_⟩
  · exact hsettled 0 ⟨none, .obj [("a", .num 1)]⟩ _ _ rfl (by decide) rfl
  · exact hsettled 1 ⟨none, .obj [("b", .num 2)]⟩ _ _ rfl (by decide) rfl
  · have hhyp : ∀ i ∈ completionOrder c2Members.length ((c2St.sch.head?).getD []),
        ∃ res d o, (initMembers c2Env c2St c2Members).2.1.get? i =
          some (.willSettle res) ∧ pathTruthy res.path = false ∧
          (initMembers c2Env c2St c2Members).1.get? i = some (.node d o) := by
      intro i hi
      have hco : completionOrder c2Members.length ((c2St.sch.head?).getD []) = [1, 0] := rfl
      rw [hco] at hi
      rcases List.mem_cons.mp hi with rfl | hi'
      · exact ⟨⟨none, .obj [("b", .num 2)]⟩, _, _, rfl, rfl, rfl⟩
      · rcases List.mem_cons.mp hi' with rfl | hi''
        · exact ⟨⟨none, .obj [("a", .num 1)]⟩, _, _, rfl, rfl, rfl⟩
        · exact absurd hi'' (by simp)
    rw [hfold hhyp]
    rfl
  · have hms : (ansTupM (runEval 6 c2Env (.members (completionOrder 2 [1, 0])
        (initMembers c2Env c2St c2Members).2.1 (initMembers c2Env c2St c2Members).1
        ⟨c2St.args, c2St.records, c2St.prom,
          c2St.trace ++ (initMembers c2Env c2St c2Members).2.2.1,
          c2St.sch.tail, c2St.start, c2St.endTime⟩))).isSome = true := rfl
    have hmeq2 := runMembers_evalE _ _ _ _ _ _ _ (Option.some_get hms).symm
    have hcomb : some (stC, ms2, anyHang) = some ((ansTupM (runEval 6 c2Env
        (.members (completionOrder 2 [1, 0])
        (initMembers c2Env c2St c2Members).2.1 (initMembers c2Env c2St c2Members).1
        ⟨c2St.args, c2St.records, c2St.prom,
          c2St.trace ++ (initMembers c2Env c2St c2Members).2.2.1,
          c2St.sch.tail, c2St.start, c2St.endTime⟩))).get hms) := hmem.symm.trans hmeq2
    injection hcomb with hcomb
    have hA : anyHang = false := by
      have := congrArg (fun t => t.2.2) hcomb
      simpa using this
    obtain ⟨rrest, hrest, hst, -⟩ := hadv (by rw [hA]; rfl)
    exact ⟨rrest, hrest, hst⟩

/-! ### C6 — replay records, and C10 — records list growth -/

/-- C6: replay.  An asynchronous branch whose structural path equals
the `outputPath` of a record found in the live records list is not
invoked at all: its initiation consults the replay record before the
action registry (so the registry is irrelevant), emits no invocation
event, and resolves instantly with the recorded `{path, args}`.  Its
completion then merges the recorded args into the shared bag, pushes
the record, and runs the sub-tree registered under the recorded output
path from exactly that merged state. -/
theorem c6_replay_semantics :
    (∀ (env env' : Env) (st : St) (d : NData) (o : Option (List (String × List BTree)))
      (rec : Rec),
      st.records.find? (fun q => isEqualArrays q.outputPath d.path) = some rec →
      initMember env st (.node d o) =
        (.node { d with isExecuting := true, args := JSVal.obj (merge [] (.obj st.args)) } o,
          [], .ok (.willSettle ⟨rec.path, rec.args⟩)) ∧
      initMember env' st (.node d o) = initMember env st (.node d o)) ∧
    (∀ (n : Nat) (env : Env) (d : NData) (m : List (String × List BTree)) (res : OutRes)
      (st : St) (y : St × BTree × Bool) (p : String) (lst : List BTree),
      res.path = some p → (p != "") = true → lookupOut m p = some lst →
      completeMember (n + 1) env (.node d (some m)) res st = some y →
      ∃ rsub, runBranch n env (some lst) 0 false
          ⟨merge st.args res.args, st.records ++ [Rec.mk d.path res.path res.args], st.prom,
            st.trace ++ [Ev.settled d.path], st.sch, st.start, st.endTime⟩ = some rsub ∧
        y.1.trace = rsub.st.trace ∧ y.1.args = rsub.st.args ∧
        y.1.records = rsub.st.records) := by
  constructor
  · intro env env' st d o rec hfind
    constructor
    · simp only [initMember, hfind]
    · simp only [initMember, hfind]
  · intro n env d m res st y p lst hp hpe hlk h
    have hsel : selPath res.path = some p := by simp [selPath, hp, hpe]
    simp only [completeMember, hsel] at h
    rw [hlk] at h
    split at h
    · exact absurd h (by simp)
    · rename_i rsub heq
      refine ⟨rsub, heq, ?_⟩
      split at h <;> (injection h with h; subst h; exact ⟨rfl, rfl, rfl⟩)

def repD : NData :=
  { name := "", actionIndex := 0, isAsync := true, path := [PKey.idx 0, PKey.idx 0] }

def repRec : Rec := ⟨[PKey.idx 0, PKey.idx 0], some "s", .obj [("k", .num 7)]⟩

def repEnv : Env := fun i =>
  match i with
  | 0 => some ⟨none, .throws⟩
  | _ => some ⟨none, .ret none⟩

def repM : List (String × List BTree) := [("s", [])]

def repTree : List BTree := [.group [mkNode 0 [.idx 0, .idx 0] true (some repM)]]

def repSt : St := ⟨[], [repRec], .unsettled, [], [], 0, 0⟩

/-- C6 witness: a replayed member (its record's outputPath equals the
member's path) is initiated without invoking the step — the throwing
registry entry is never consulted — resolves with the recorded payload,
merges the recorded args, runs the registered sub-tree, and the run
resolves; its trace holds no invocation event at all. -/
theorem c6_replay_witness :
    initMember repEnv repSt (.node repD (some repM)) =
      (.node { repD with isExecuting := true, args := JSVal.obj [] } (some repM), [],
        .ok (.willSettle ⟨some "s", .obj [("k", .num 7)]⟩)) ∧
    initMember quietEnv repSt (.node repD (some repM)) =
      initMember repEnv repSt (.node repD (some repM)) ∧
    (∃ y rsub, completeMember 3 repEnv (.node repD (some repM))
        ⟨some "s", .obj [("k", .num 7)]⟩ repSt = some y ∧
      runBranch 2 repEnv (some []) 0 false ⟨[("k", .num 7)], [repRec, repRec], .unsettled,
        [Ev.settled [PKey.idx 0, PKey.idx 0]], [], 0, 0⟩ = some rsub ∧
      y.1.trace = rsub.st.trace ∧ y.1.args = rsub.st.args ∧
      y.1.records = rsub.st.records) ∧
    (∃ r, runSignal 8 repEnv repTree [] [repRec] [] 0 0 = some r ∧
      (∃ sig, r.prom = .resolvedWith sig) ∧
      r.trace = [Ev.settled [PKey.idx 0, PKey.idx 0]] ∧
      r.args = [("k", .num 7)] ∧ r.records = [repRec, repRec]) := by
  obtain ⟨h1, h2⟩ := c6_replay_semantics.1 repEnv quietEnv repSt repD (some repM) repRec rfl
  refine ⟨h1, h2, ?_, ?_⟩
  · have hcm : (ansTupC (runEval 4 repEnv (.completeM (.node repD (some repM))
        ⟨some "s", .obj [("k", .num 7)]⟩ repSt))).isSome = true := rfl
    have hcme := completeMember_evalE _ _ _ _ _ _ (Option.some_get hcm).symm
    obtain ⟨rsub, hrsub, ht, ha, hr⟩ := c6_replay_semantics.2 3 repEnv repD repM
      ⟨some "s", .obj [("k", .num 7)]⟩ repSt _ "s" [] rfl rfl rfl hcme
    exact ⟨_, rsub, hcme, hrsub, ht, ha, hr⟩
  · have hsome : (ansRB (runEval 8 repEnv (.branch (some repTree) 0 true
        ⟨[], [repRec], checkArgs [] .unsettled, [], [], 0, 0⟩))).isSome = true := rfl
    have heq := (Option.some_get hsome).symm
    have hsig := runSignal_eval 8 repEnv repTree [] [repRec] [] 0 0 _ true heq rfl
    exact ⟨_, hsig, ⟨_, rfl⟩, rfl, rfl, rfl⟩

/-- C10: the caller-supplied `asyncActionResults` array grows in
place.  Every run's final records list extends the caller's list; every
member completion appends exactly one `{outputPath, path, args}`
record; and a replay match is itself a previously pushed record with
`outputPath` equal to the member's path, whose completion appends an
identical record again (the duplication). -/
theorem c10_records_growth :
    (∀ (fuel : Nat) (env : Env) (tree : List BTree) (args : List (String × JSVal))
      (recs : List Rec) (sch : List (List Nat)) (s e : Int) (r : RunResult),
      runSignal fuel env tree args recs sch s e = some r →
      ∃ dr, r.records = recs ++ dr) ∧
    (∀ (n : Nat) (env : Env) (d : NData) (o : Option (List (String × List BTree)))
      (res : OutRes) (st : St) (y : St × BTree × Bool),
      completeMember (n + 1) env (.node d o) res st = some y →
      ∃ dr, y.1.records = st.records ++ [Rec.mk d.path res.path res.args] ++ dr) ∧
    (∀ (env : Env) (st : St) (d : NData) (o : Option (List (String × List BTree)))
      (rec : Rec),
      st.records.find? (fun q => isEqualArrays q.outputPath d.path) = some rec →
      rec ∈ st.records ∧ rec.outputPath = d.path ∧
      initMember env st (.node d o) =
        (.node { d with isExecuting := true, args := JSVal.obj (merge [] (.obj st.args)) } o,
          [], .ok (.willSettle ⟨rec.path, rec.args⟩)) ∧
      Rec.mk d.path rec.path rec.args = rec) := by
  refine ⟨?_, ?_, ?_⟩
  · intro fuel env tree args recs sch s e r h
    simp only [runSignal] at h
    split at h
    · exact absurd h (by simp)
    · rename_i rb heq
      injection h with h
      subst h
      have hpre : (⟨args, recs, checkArgs args .unsettled, [], sch, s, e⟩ : St).records <+:
          rb.st.records := (runBranch_stinv heq).2.1
      obtain ⟨dr, hdr⟩ := hpre
      exact ⟨dr, hdr.symm⟩
  · intro n env d o res st y h
    simp only [completeMember] at h
    split at h
    · rename_i p hselq
      split at h
      · injection h with h
        subst h
        exact ⟨[], by simp⟩
      · rename_i m
        split at h
        · exact absurd h (by simp)
        · rename_i rsub heq
          have hpre : (⟨merge st.args res.args,
              st.records ++ [Rec.mk d.path res.path res.args], st.prom,
              st.trace ++ [Ev.settled d.path], st.sch, st.start, st.endTime⟩ : St).records <+:
              rsub.st.records := (runBranch_stinv heq).2.1
          obtain ⟨dr, hdr⟩ := hpre
          split at h <;> (injection h with h; subst h; exact ⟨dr, by simpa using hdr.symm⟩)
    · injection h with h
      subst h
      exact ⟨[], by simp⟩
  · intro env st d o rec hfind
    have hmem := List.mem_of_find?_eq_some hfind
    have hp := List.find?_some hfind
    simp only [decide_eq_true_eq] at hp
    have hop : rec.outputPath = d.path := (isEqualArrays_iff _ _).mp hp
    refine ⟨hmem, hop, by simp only [initMember, hfind], ?_⟩
    cases rec with
    | mk op pp aa =>
      simp only at hop
      rw [hop]

/-- C10 witness: a replay run appends the matched member's record to
the caller's list again — the two-element result is the caller's
one-element list grown in place by the duplicate — and a single member
completion appends exactly one `{outputPath, path, args}` record. -/
theorem c10_records_witness :
    (∃ r, runSignal 8 repEnv repTree [] [repRec] [] 0 0 = some r ∧
      (∃ dr, r.records = [repRec] ++ dr) ∧ r.records = [repRec, repRec]) ∧
    (∃ y, completeMember 3 repEnv (.node repD (some repM))
        ⟨some "s", .obj [("k", .num 7)]⟩ repSt = some y ∧
      (∃ dr, y.1.records = [repRec] ++ [Rec.mk [PKey.idx 0, PKey.idx 0] (some "s")
        (.obj [("k", .num 7)])] ++ dr) ∧ y.1.records = [repRec, repRec]) ∧
    repRec ∈ [repRec] ∧ repRec.outputPath = repD.path ∧
    Rec.mk repD.path repRec.path repRec.args = repRec := by
  refine ⟨?_, ?_, ?_⟩
  · have hsome : (ansRB (runEval 8 repEnv (.branch (some repTree) 0 true
        ⟨[], [repRec], checkArgs [] .unsettled, [], [], 0, 0⟩))).isSome = true := rfl
    have heq := (Option.some_get hsome).symm
    have hsig := runSignal_eval 8 repEnv repTree [] [repRec] [] 0 0 _ true heq rfl
    obtain ⟨dr, hdr⟩ := c10_records_growth.1 8 repEnv repTree [] [repRec] [] 0 0 _ hsig
    exact ⟨_, hsig, ⟨dr, hdr⟩, rfl⟩
  · have hcm : (ansTupC (runEval 4 repEnv (.completeM (.node repD (some repM))
        ⟨some "s", .obj [("k", .num 7)]⟩ repSt))).isSome = true := rfl
    have hcme := completeMember_evalE _ _ _ _ _ _ (Option.some_get hcm).symm
    obtain ⟨dr, hdr⟩ := c10_records_growth.2.1 3 repEnv repD (some repM)
      ⟨some "s", .obj [("k", .num 7)]⟩ repSt _ hcme
    exact ⟨_, hcme, ⟨dr, hdr⟩, rfl⟩
  · obtain ⟨h1, h2, -, h4⟩ := c10_records_growth.2.2 repEnv repSt repD (some repM) repRec rfl
    exact ⟨h1, h2, h4⟩
